import Mathlib

/-
Verification of the D2RQ mapping merger (dimm.py, class D2RParser).

The development shallowly embeds the program: Python strings become lists of
characters, rdflib graphs become lists of statements with set-style insertion,
the filesystem becomes a list of directory entries in preorder (the order
produced by a recursive directory walk), and one rdflib parse of a file
instantiates the file's blank nodes freshly (blank-node identifiers are scoped
to a single load).  The two regular expressions used by the program
(re.search patterns anchored at the start, and re.sub with a dot pattern) are
embedded by their exact matching semantics, including the facts that the dot
metacharacter does not match a newline and that the dollar anchor also matches
just before a trailing newline.
-/

namespace Dimm

/-- Python strings are modelled as lists of characters. -/
abbrev Str := List Char

/-- Everything after the first occurrence of character c (meaningful when c occurs). -/
def afterFirstChar (c : Char) (s : Str) : Str :=
  (s.dropWhile (fun x => x ≠ c)).tail

/-- Everything after the last occurrence of character c (the whole list when c is absent). -/
def afterLastChar (c : Char) (s : Str) : Str :=
  (s.reverse.takeWhile (fun x => x ≠ c)).reverse

/-- Semantics of the regex fragment (.+)$ applied to r: the dot does not match a
newline, the plus requires a nonempty match, and the dollar matches at the end of
the string or just before a trailing newline.  Returns the matched group. -/
def dotPlusGroup (r : Str) : Option Str :=
  let run := r.takeWhile (fun x => x ≠ '\n')
  let rest := r.dropWhile (fun x => x ≠ '\n')
  if run ≠ [] ∧ (rest = [] ∨ rest = ['\n']) then some run else none

/-- Effect of re.search applied to the anchored pattern that skips the characters
before the first sharp sign and captures (.+)$ after it; on a match the string is
replaced by the captured group, otherwise it is returned unchanged
(source: local_name, first regex). -/
def sharpStep (s : Str) : Str :=
  if '#' ∈ s then
    match dotPlusGroup (afterFirstChar '#' s) with
    | some g => g
    | none => s
  else s

/-- Effect of re.search applied to the anchored pattern that greedily matches any
characters, a slash, then captures a nonempty slash-free group up to the dollar
anchor; on a match the string is replaced by the captured group, otherwise it is
returned unchanged (source: local_name, second regex).  The greedy prefix cannot
cross a newline, while the negated character class can contain one. -/
def slashStep (s : Str) : Str :=
  let nlRun := s.takeWhile (fun x => x ≠ '\n')
  let nlRest := s.dropWhile (fun x => x ≠ '\n')
  if '/' ∈ nlRun then
    let t := afterLastChar '/' nlRun ++ nlRest
    if t ≠ [] ∧ '/' ∉ t then t else s
  else s

/-- local_name of the source: strip up to the first sharp sign when the first
regex matches, then up to the last slash when the second regex matches. -/
def local_name (s : Str) : Str :=
  slashStep (sharpStep s)

/-- Does (.+)$ match here (used by the basename-trimming substitution)? -/
def dotPlusMatches (r : Str) : Prop :=
  r.takeWhile (fun x => x ≠ '\n') ≠ [] ∧
    (r.dropWhile (fun x => x ≠ '\n') = [] ∨ r.dropWhile (fun x => x ≠ '\n') = ['\n'])

instance (r : Str) : Decidable (dotPlusMatches r) := by
  unfold dotPlusMatches; infer_instance

/-- Effect of re.sub replacing the leftmost match of a literal dot followed by
(.+)$ with the empty string (source: validate_file computing the expected
resource name from the file basename).  The dollar anchor is zero width, so a
trailing newline survives the substitution. -/
def subDotPlus : Str → Str
  | [] => []
  | c :: cs =>
    if c = '.' ∧ dotPlusMatches cs then cs.dropWhile (fun x => x ≠ '\n')
    else c :: subDotPlus cs

/-- RDF nodes: IRIs, blank nodes and literals, each carrying the string that the
Python str conversion yields for them. -/
inductive Node where
  | iri (s : Str)
  | bnode (s : Str)
  | lit (s : Str)
deriving DecidableEq

/-- The string the program obtains from str applied to the node. -/
def nodeStr : Node → Str
  | .iri s => s
  | .bnode s => s
  | .lit s => s

/-- Blank-node test (isinstance BNode in the source). -/
def Node.isBnode : Node → Bool
  | .bnode _ => true
  | _ => false

/-- An RDF statement. -/
structure Stmt where
  s : Node
  p : Node
  o : Node
deriving DecidableEq

/-- A graph is a list of statements; insertion keeps set semantics. -/
abbrev Graph := List Stmt

/-- Adding to an rdflib graph: a statement already present is not duplicated. -/
def graphAdd (m : Graph) (t : Stmt) : Graph :=
  if t ∈ m then m else m ++ [t]

/-- Objects used with a given predicate, in store order (graph.objects(None, p)). -/
def objectsOf (g : Graph) (pred : Node) : List Node :=
  (g.filter (fun t => decide (t.p = pred))).map (fun t => t.o)

/-- The D2RQ namespace of the source. -/
def d2rqNS : Str := "http://www.wiwiss.fu-berlin.de/suhl/bizer/D2RQ/0.1#".data

/-- d2rq:ClassMap. -/
def d2rqClassMap : Node := .iri (d2rqNS ++ "ClassMap".data)

/-- d2rq:TranslationTable. -/
def d2rqTranslationTable : Node := .iri (d2rqNS ++ "TranslationTable".data)

/-- d2rq:Database. -/
def d2rqDatabase : Node := .iri (d2rqNS ++ "Database".data)

/-- d2rq:refersToClassMap. -/
def d2rqRefersToClassMap : Node := .iri (d2rqNS ++ "refersToClassMap".data)

/-- d2rq:translateWith. -/
def d2rqTranslateWith : Node := .iri (d2rqNS ++ "translateWith".data)

/-- d2rq:dataStorage. -/
def d2rqDataStorage : Node := .iri (d2rqNS ++ "dataStorage".data)

/-- rdf:type. -/
def rdfType : Node := .iri "http://www.w3.org/1999/02/22-rdf-syntax-ns#type".data

/-- os.path.dirname for POSIX paths: the part before the last slash, keeping a
head made only of slashes, otherwise stripping trailing slashes. -/
def dirname (s : Str) : Str :=
  if '/' ∈ s then
    let head := (s.reverse.dropWhile (fun x => x ≠ '/')).reverse
    if head.all (fun x => x = '/') then head
    else (head.reverse.dropWhile (fun x => x = '/')).reverse
  else []

/-- os.path.basename for POSIX paths: the part after the last slash. -/
def basename (s : Str) : Str :=
  (s.reverse.takeWhile (fun x => x ≠ '/')).reverse

/-- A single slash, the path separator. -/
def slashC : Str := ['/']

/-- A single dot. -/
def dotC : Str := ['.']

/-- A file on disk: its name (with extension), the statements a successful RDF
parse of it yields (with file-scoped blank-node labels), and its declared
namespace bindings. -/
structure FileEnt where
  name : Str
  graph : Graph
  ns : List (Str × Str)
deriving DecidableEq

/-- A directory with the files it directly contains. -/
structure DirEnt where
  path : Str
  files : List FileEnt
deriving DecidableEq

/-- The filesystem: directories listed in preorder, each with its absolute path. -/
abbrev World := List DirEnt

/-- os.walk of a directory: the directory itself and every directory below it,
in the preorder the world records. -/
def walkDir (w : World) (d : Str) : World :=
  w.filter (fun e => decide (e.path = d) || List.isPrefixOf (d ++ slashC) e.path)

/-- complete_file_path of the source: walk the directory containing the
incomplete path (a recursive walk) and return the first file whose full path
extends the incomplete path followed by a dot, together with that file. -/
def complete_file_path (w : World) (incomplete : Str) : Option (Str × FileEnt) :=
  (walkDir w (dirname incomplete)).findSome? (fun e =>
    e.files.findSome? (fun f =>
      if List.isPrefixOf (incomplete ++ dotC) (e.path ++ slashC ++ f.name)
      then some (e.path ++ slashC ++ f.name, f) else none))

/-- validate_file of the source, after a successful load: compute the expected
name by deleting the leftmost dot-to-end match from the basename, scan every
rdf:type statement for a subject whose local name equals the expected name, and
return the whole loaded graph on success, nothing otherwise. -/
def validate_file (base : Str) (g : Graph) : Option Graph :=
  if g.any (fun t => decide (t.p = rdfType) && decide (local_name (nodeStr t.s) = subDotPlus base))
  then some g else none

/-- Each parse of a file yields fresh blank nodes: rename every blank node of
the file-scoped graph with the current load counter. -/
def renameNode (k : Nat) : Node → Node
  | .bnode s => .bnode ((Nat.repr k).data ++ '_' :: s)
  | n => n

/-- Instantiate the blank nodes of a freshly parsed graph. -/
def instantiateBNodes (k : Nat) (g : Graph) : Graph :=
  g.map (fun t => ⟨renameNode k t.s, t.p, renameNode k t.o⟩)

/-- The state of the D2RParser: the final mapping, the three resolved-reference
sets, the namespace registry, and the load counter feeding fresh blank nodes. -/
structure PState where
  final_mapping : Graph
  classmap_set : List Node
  translationtable_set : List Node
  database_set : List Node
  namespaces : List (Str × Str)
  counter : Nat
deriving DecidableEq

/-- Insertion into a resolved-reference set. -/
def setInsert (l : List Node) (x : Node) : List Node :=
  if x ∈ l then l else l ++ [x]

/-- Binding one namespace in the registry: the last writer for a prefix wins. -/
def nsBind (reg : List (Str × Str)) (b : Str × Str) : List (Str × Str) :=
  reg.filter (fun q => decide (q.1 ≠ b.1)) ++ [b]

/-- add_declared_namespaces of the source. -/
def add_declared_namespaces (ns : List (Str × Str)) (S : PState) : PState :=
  { S with namespaces := ns.foldl nsBind S.namespaces }

/-- One step of clear_orphan_blank_nodes: a blank-node subject that is not the
object of any statement of the current mapping loses all its statements. -/
def orphanStep (m : Graph) (x : Node) : Graph :=
  if x.isBnode = true ∧ x ∉ m.map (fun t => t.o) then
    m.filter (fun t => decide (t.s ≠ x))
  else m

/-- clear_orphan_blank_nodes of the source: one pass over the subjects of the
mapping, checking each against the current (already pruned) mapping. -/
def clear_orphan_blank_nodes (m : Graph) : Graph :=
  (m.map (fun t => t.s)).foldl orphanStep m

/-- clear_d2rq_entity of the source: when the referenced node has no rdf:type
statement in the mapping, every statement of the referencing entity is removed. -/
def clear_d2rq_entity (m : Graph) (ent r : Node) : Graph :=
  if ∃ u ∈ m, u.s = r ∧ u.p = rdfType then m
  else m.filter (fun t => decide (t.s ≠ ent))

/-- One loop of clear_orphan_property_bridges: fold clear_d2rq_entity over the
subject-object pairs of one reference predicate. -/
def bridgePass (g : Graph) (ts : List Stmt) : Graph :=
  ts.foldl (fun h t => clear_d2rq_entity h t.s t.o) g

/-- clear_orphan_property_bridges of the source: for each of the three reference
predicates in turn, clear every referencing entity whose reference is untyped;
each loop takes the pairs from the mapping as it stands when the loop starts. -/
def clear_orphan_property_bridges (m : Graph) : Graph :=
  let m1 := bridgePass m (m.filter (fun t => decide (t.p = d2rqRefersToClassMap)))
  let m2 := bridgePass m1 (m1.filter (fun t => decide (t.p = d2rqTranslateWith)))
  bridgePass m2 (m2.filter (fun t => decide (t.p = d2rqDataStorage)))

/-- log_references of the source, as the list of reference identifiers it warns
about: objects used with the reference predicate that lack the exact expected
typing statement in the final mapping. -/
def log_references (m : Graph) (pred ty : Node) : List Node :=
  (objectsOf m pred).filter (fun r => decide (Stmt.mk r rdfType ty ∉ m))

/-- One statement of the selective import: add it, and when its object is a
blank node also add every statement of that blank node (one level only). -/
def importStep (g : Graph) (m : Graph) (t : Stmt) : Graph :=
  let m1 := graphAdd m t
  if t.o.isBnode = true then
    (g.filter (fun u => decide (u.s = t.o))).foldl graphAdd m1
  else m1

/-- Import performed by retrieve_references after a successful validation: every
statement of the referenced resource, and for each blank-node object of those
also every statement of that blank node (one level only). -/
def importRef (g : Graph) (r : Node) (m : Graph) : Graph :=
  (g.filter (fun t => decide (t.s = r))).foldl (importStep g) m

/-- retrieve_references of the source: search the directory of the referencing
file for a sibling file named after the reference's local name; when one is
found, load it (fresh blank nodes, counter advances) and, when it validates,
merge its namespaces and import the reference's statements selectively. -/
def retrieve_references (w : World) (file_path : Str) (r : Node) (S : PState) : PState :=
  let nm := local_name (nodeStr r)
  match complete_file_path w (dirname file_path ++ slashC ++ nm) with
  | none => S
  | some (p, fe) =>
    let g0 := instantiateBNodes S.counter fe.graph
    let S1 := { S with counter := S.counter + 1 }
    match validate_file (basename p) g0 with
    | none => S1
    | some g =>
      let S2 := add_declared_namespaces fe.ns S1
      { S2 with final_mapping := importRef g r S2.final_mapping }

/-- One statement of the copy loop of parse_file: add the statement unless its
subject is already in the translation-table or data-store set, and record
class-map typing subjects. -/
def copyStep (S : PState) (t : Stmt) : PState :=
  let S1 :=
    if t.s ∈ S.translationtable_set ∨ t.s ∈ S.database_set then S
    else { S with final_mapping := graphAdd S.final_mapping t }
  if t.o = d2rqClassMap then { S1 with classmap_set := setInsert S1.classmap_set t.s }
  else S1

/-- One referenced class map: if not yet resolved, mark it resolved and invoke
the reference resolver. -/
def classmapStep (w : World) (fp : Str) (S : PState) (r : Node) : PState :=
  if r ∈ S.classmap_set then S
  else retrieve_references w fp r { S with classmap_set := setInsert S.classmap_set r }

/-- One referenced translation table. -/
def ttableStep (w : World) (fp : Str) (S : PState) (r : Node) : PState :=
  if r ∈ S.translationtable_set then S
  else retrieve_references w fp r
    { S with translationtable_set := setInsert S.translationtable_set r }

/-- One referenced data store. -/
def dbaseStep (w : World) (fp : Str) (S : PState) (r : Node) : PState :=
  if r ∈ S.database_set then S
  else retrieve_references w fp r { S with database_set := setInsert S.database_set r }

/-- parse_file of the source: load the file (fresh blank nodes), validate it,
and if valid copy its statements (suppressing already-imported subjects), merge
its namespaces, resolve its three kinds of references, and in every case finish
with the orphan blank-node cleanup pass. -/
def parse_file (w : World) (dir : Str) (fe : FileEnt) (S : PState) : PState :=
  let g0 := instantiateBNodes S.counter fe.graph
  let S0 := { S with counter := S.counter + 1 }
  let fp := dir ++ slashC ++ fe.name
  match validate_file (basename fp) g0 with
  | none => { S0 with final_mapping := clear_orphan_blank_nodes S0.final_mapping }
  | some g =>
    let S1 := g.foldl copyStep S0
    let S2 := add_declared_namespaces fe.ns S1
    let S3 := (objectsOf g d2rqRefersToClassMap).foldl (classmapStep w fp) S2
    let S4 := (objectsOf g d2rqTranslateWith).foldl (ttableStep w fp) S3
    let S5 := (objectsOf g d2rqDataStorage).foldl (dbaseStep w fp) S4
    { S5 with final_mapping := clear_orphan_blank_nodes S5.final_mapping }

/-- The driving loop of parse_path_list restricted to its per-file action:
merge each input file in turn. -/
def mergeFiles (w : World) (fl : List (Str × FileEnt)) (S : PState) : PState :=
  fl.foldl (fun S p => parse_file w p.1 p.2 S) S

/-- The initial accumulator of a merge run. -/
def initS : PState := ⟨[], [], [], [], [], 0⟩

/-- The serialization formats tried by the graph loader, in priority order. -/
inductive RdfFormat where
  | jsonld
  | rdfxml
  | turtle
  | trig
deriving DecidableEq

/-- The fixed format priority order of the source. -/
def formats : List RdfFormat := [.jsonld, .rdfxml, .turtle, .trig]

/-- Load errors of the source: IOError 1 (missing file) and IOError 2 (no
recognized format). -/
inductive LoadErr where
  | missing
  | unrecognized
deriving DecidableEq

/-- The external loading capability: which paths hold a file (and which content,
identified by a number), and whether a given format parses a given content at a
given path.  Parsing may depend on the path, modelling the rdflib issue with
special characters in paths that motivates the scratch-directory fallback. -/
structure Loader where
  content : Str → Option Nat
  parse : RdfFormat → Str → Nat → Option Graph

/-- Try the formats in priority order, returning the first successful parse. -/
def tryFormats (L : Loader) (p : Str) (c : Nat) : Option Graph :=
  formats.findSome? (fun f => L.parse f p c)

/-- The private load_graph of the source: first format that parses wins,
otherwise the unrecognized-format error. -/
def load_graph (L : Loader) (p : Str) : Except LoadErr Graph :=
  match L.content p with
  | none => .error .missing
  | some c =>
    match tryFormats L p c with
    | some g => .ok g
    | none => .error .unrecognized

/-- The name of the scratch copy used by the fallback. -/
def tmpName : Str := "tmp_rdf_file.rdf".data

/-- shutil.copyfile: after the copy, the destination path holds the source
path's content. -/
def copyTo (L : Loader) (src dst : Str) : Loader :=
  { content := fun p => if p = dst then L.content src else L.content p,
    parse := L.parse }

/-- The private load_graph_from_format of the source, instrumented with the list
of paths a load was attempted on: a missing file is a fatal error before any
load; any load error is caught and, exactly when a scratch directory is
configured, the file is copied to the scratch path and loaded once from there
(that second result, success or error, is final); without a scratch directory
the original error propagates. -/
def load_graph_from_format (L : Loader) (tmp_dir : Option Str) (p : Str) :
    Except LoadErr Graph × List Str :=
  match L.content p with
  | none => (.error .missing, [])
  | some _ =>
    match load_graph L p with
    | .ok g => (.ok g, [p])
    | .error e =>
      match tmp_dir with
      | none => (.error e, [p])
      | some td =>
        let tp := td ++ slashC ++ tmpName
        (load_graph (copyTo L p tp) tp, [p, tp])

deriving instance DecidableEq for Except

/-- No statement links a blank-node subject to a blank-node object (no
blank-node chains). -/
def noBnodeChain (m : Graph) : Prop :=
  ∀ t ∈ m, t.s.isBnode = true → t.o.isBnode = false

/-- A graph whose statements carry no blank node in subject or object position. -/
def bnodeFreeGraph (g : Graph) : Prop :=
  ∀ t ∈ g, t.s.isBnode = false ∧ t.o.isBnode = false

/-- Every file of the world parses to a blank-node-free graph. -/
def bnodeFreeWorld (w : World) : Prop :=
  ∀ e ∈ w, ∀ f ∈ e.files, bnodeFreeGraph f.graph

/-- The three reference predicates of the cleanup and reporting passes. -/
def refPred (p : Node) : Prop :=
  p = d2rqRefersToClassMap ∨ p = d2rqTranslateWith ∨ p = d2rqDataStorage

/-- x carries an rdf:type statement in m. -/
def typedIn (m : Graph) (x : Node) : Prop :=
  ∃ u ∈ m, u.s = x ∧ u.p = rdfType

/-- x is the object of some reference-predicate statement of m. -/
def isTarget (m : Graph) (x : Node) : Prop :=
  ∃ t ∈ m, refPred t.p ∧ t.o = x

/-- No reference target is itself the subject of a reference statement. -/
def targetsNotReferrers (m : Graph) : Prop :=
  ∀ t ∈ m, ∀ u ∈ m, refPred t.p → refPred u.p → t.o ≠ u.s

instance (m : Graph) : Decidable (noBnodeChain m) :=
  inferInstanceAs (Decidable (∀ t ∈ m, t.s.isBnode = true → t.o.isBnode = false))

instance (g : Graph) : Decidable (bnodeFreeGraph g) :=
  inferInstanceAs (Decidable (∀ t ∈ g, t.s.isBnode = false ∧ t.o.isBnode = false))

instance (w : World) : Decidable (bnodeFreeWorld w) :=
  inferInstanceAs (Decidable (∀ e ∈ w, ∀ f ∈ e.files, bnodeFreeGraph f.graph))

instance (p : Node) : Decidable (refPred p) :=
  inferInstanceAs (Decidable (p = d2rqRefersToClassMap ∨ p = d2rqTranslateWith ∨
    p = d2rqDataStorage))

instance (m : Graph) (x : Node) : Decidable (typedIn m x) :=
  inferInstanceAs (Decidable (∃ u ∈ m, u.s = x ∧ u.p = rdfType))

instance (m : Graph) (x : Node) : Decidable (isTarget m x) :=
  inferInstanceAs (Decidable (∃ t ∈ m, refPred t.p ∧ t.o = x))

instance (m : Graph) : Decidable (targetsNotReferrers m) :=
  inferInstanceAs (Decidable (∀ t ∈ m, ∀ u ∈ m, refPred t.p → refPred u.p → t.o ≠ u.s))

/-- The basename validate_file sees for a file merged from a directory. -/
def expectedName (d : Str) (fe : FileEnt) : Str :=
  basename (d ++ slashC ++ fe.name)

/-- The file has been fully absorbed by the accumulator: it is invalid, or all
its statements are present or suppressed, its class-map typings and all its
references are recorded in the resolved-reference sets. -/
def fileDone (d : Str) (fe : FileEnt) (S : PState) : Prop :=
  validate_file (expectedName d fe) fe.graph = none ∨
  ((∀ t ∈ fe.graph, t ∈ S.final_mapping ∨ t.s ∈ S.translationtable_set ∨
      t.s ∈ S.database_set) ∧
   (∀ t ∈ fe.graph, t.o = d2rqClassMap → t.s ∈ S.classmap_set) ∧
   (∀ r ∈ objectsOf fe.graph d2rqRefersToClassMap, r ∈ S.classmap_set) ∧
   (∀ r ∈ objectsOf fe.graph d2rqTranslateWith, r ∈ S.translationtable_set) ∧
   (∀ r ∈ objectsOf fe.graph d2rqDataStorage, r ∈ S.database_set))

/-- Growth order on accumulator states: mapping and the three sets only grow. -/
def PLe (S S' : PState) : Prop :=
  S.final_mapping ⊆ S'.final_mapping ∧ S.classmap_set ⊆ S'.classmap_set ∧
  S.translationtable_set ⊆ S'.translationtable_set ∧
  S.database_set ⊆ S'.database_set

/-- Two states agreeing on the mapping and the three resolved-reference sets. -/
def sameCore (S S' : PState) : Prop :=
  S.final_mapping = S'.final_mapping ∧ S.classmap_set = S'.classmap_set ∧
  S.translationtable_set = S'.translationtable_set ∧
  S.database_set = S'.database_set

/-- Modelled from the spec (amended wording of the URI Namer for newline-free
identifiers): if the identifier contains a fragment separator and the part
after the first one is nonempty, keep that part; then, if the result contains a
path separator and the part after the last one is nonempty, keep that part. -/
def specLocalName (s : Str) : Str :=
  let t := if '#' ∈ s ∧ afterFirstChar '#' s ≠ [] then afterFirstChar '#' s else s
  if '/' ∈ t ∧ afterLastChar '/' t ≠ [] then afterLastChar '/' t else t

/-- Concrete resource A used by the counterexample runs. -/
def nA : Node := .iri "http://x/A".data

/-- Concrete predicate used by the counterexample runs. -/
def nP : Node := .iri "http://x/p".data

/-- Concrete object used by the counterexample runs. -/
def nO : Node := .iri "http://x/o".data

/-- Concrete resource B used by the counterexample runs. -/
def nB : Node := .iri "http://x/B".data

/-- Concrete unresolved reference X used by the counterexample runs. -/
def nX : Node := .iri "http://x/X".data

/-- A file declaring its main resource and typing A as a class map. -/
def fDeclA : FileEnt := ⟨"Foo1.ttl".data,
  [⟨.iri "http://x/Foo1".data, rdfType, .iri "http://x/T".data⟩,
   ⟨nA, rdfType, d2rqClassMap⟩], []⟩

/-- A file declaring its main resource and one further statement about A. -/
def fAboutA : FileEnt := ⟨"Foo2.ttl".data,
  [⟨.iri "http://x/Foo2".data, rdfType, .iri "http://x/T".data⟩,
   ⟨nA, nP, nO⟩], []⟩

/-- A file whose blank node b1 points at blank node b2 and b2 at a named node:
an orphaned blank-node chain once merged. -/
def fChain : FileEnt := ⟨"Foo.ttl".data,
  [⟨.iri "http://x/Foo".data, rdfType, .iri "http://x/T".data⟩,
   ⟨.bnode "b2".data, nP, nO⟩,
   ⟨.bnode "b1".data, nP, .bnode "b2".data⟩], []⟩

/-- A file where entity B references A, A is typed as a class map, and A itself
references the never-resolved X. -/
def fBridge : FileEnt := ⟨"Foo.ttl".data,
  [⟨.iri "http://x/Foo".data, rdfType, .iri "http://x/T".data⟩,
   ⟨nB, d2rqRefersToClassMap, nA⟩,
   ⟨nA, rdfType, d2rqClassMap⟩,
   ⟨nA, d2rqRefersToClassMap, nX⟩], []⟩

/-- A file with a reachable blank node hanging off its main resource. -/
def fHasBnode : FileEnt := ⟨"Foo.ttl".data,
  [⟨.iri "http://x/Foo".data, rdfType, .iri "http://x/T".data⟩,
   ⟨.iri "http://x/Foo".data, nP, .bnode "b1".data⟩,
   ⟨.bnode "b1".data, nP, nO⟩], []⟩

/-- A file that fails validation (it declares no typed resource at all). -/
def fInvalid : FileEnt := ⟨"Bar.ttl".data, [], []⟩

/-- A world whose directory d has no file named Foo but a subdirectory Foo.d
containing a file bar. -/
def wSub : World := [⟨"d".data, []⟩, ⟨"d/Foo.d".data, [⟨"bar".data, [], []⟩]⟩]

/-- A loader holding one file whose content no format can parse at any path:
a genuine unrecognized-format failure, not attributable to path characters. -/
def lUnparseable : Loader :=
  ⟨fun p => if p = "d/f.ttl".data then some 0 else none, fun _ _ _ => none⟩

/-- A graph declaring one typed resource with local name x. -/
def gTypedX : Graph := [⟨.iri "http://e/x".data, rdfType, .iri "http://e/T".data⟩]

/-- The directory the counterexample merge runs read their files from. -/
def dirD : Str := "dir".data

/-- The accumulator after merging the file that types A as a class map. -/
def stateAfterDecl : PState := mergeFiles [] [(dirD, fDeclA)] initS

/-- The accumulator after additionally merging the file speaking about A. -/
def stateAfterBoth : PState := mergeFiles [] [(dirD, fDeclA), (dirD, fAboutA)] initS

/-- The accumulator after merging the blank-node chain file. -/
def chainState : PState := parse_file [] dirD fChain initS

/-- The accumulator after a merge of an invalid file on top of the chain state. -/
def chainThenInvalid : PState := parse_file [] dirD fInvalid chainState

/-- The final mapping of the bridge file after the dangling-bridge pass. -/
def bridgeResult : Graph :=
  clear_orphan_property_bridges ((parse_file [] dirD fBridge initS).final_mapping)

/-- The accumulator after one pass over the blank-node file. -/
def bnodeOnce : PState := mergeFiles [] [(dirD, fHasBnode)] initS

/-- The accumulator after a second pass over the same list. -/
def bnodeTwice : PState := mergeFiles [] [(dirD, fHasBnode)] bnodeOnce

theorem foldl_pres {α β : Type} (P : β → Prop) (step : β → α → β)
    (h : ∀ b x, P b → P (step b x)) :
    ∀ (l : List α) (b : β), P b → P (l.foldl step b) := by
  intro l
  induction l with
  | nil => intro b hb; exact hb
  | cons x l ih => intro b hb; exact ih (step b x) (h b x hb)

theorem foldl_fix {α β : Type} (step : β → α → β) :
    ∀ (l : List α) (b : β), (∀ x ∈ l, step b x = b) → l.foldl step b = b := by
  intro l
  induction l with
  | nil => intro b _; rfl
  | cons x l ih =>
    intro b hb
    have hx : step b x = b := hb x (List.mem_cons_self x l)
    rw [List.foldl_cons, hx]
    exact ih b (fun y hy => hb y (List.mem_cons_of_mem x hy))

theorem findSome_mem {α β : Type} (f : α → Option β) :
    ∀ (l : List α) (b : β), l.findSome? f = some b → ∃ a ∈ l, f a = some b := by
  intro l
  induction l with
  | nil => intro b h; simp [List.findSome?] at h
  | cons x l ih =>
    intro b h
    rw [List.findSome?_cons] at h
    cases hx : f x with
    | some c =>
      rw [hx] at h
      refine ⟨x, List.mem_cons_self x l, ?_⟩
      rw [hx]
      exact h
    | none =>
      rw [hx] at h
      have h2 : l.findSome? f = some b := h
      obtain ⟨a, ha, hfa⟩ := ih b h2
      exact ⟨a, List.mem_cons_of_mem x ha, hfa⟩

theorem nlFree_afterFirstChar {s : Str} (c : Char) (h : '\n' ∉ s) :
    '\n' ∉ afterFirstChar c s := by
  intro hx
  apply h
  unfold afterFirstChar at hx
  exact List.Sublist.mem (List.Sublist.mem hx (List.tail_sublist _)) (List.dropWhile_sublist _)

theorem not_mem_afterLastChar (x : Char) (l : Str) : x ∉ afterLastChar x l := by
  intro hx
  unfold afterLastChar at hx
  rw [List.mem_reverse] at hx
  have := List.mem_takeWhile_imp hx
  simp at this

theorem mem_afterLastChar {y x : Char} {l : Str} (h : y ∈ afterLastChar x l) : y ∈ l := by
  unfold afterLastChar at h
  rw [List.mem_reverse] at h
  exact List.mem_reverse.mp ((List.takeWhile_sublist _).mem h)

theorem nlFree_takeWhile {s : Str} (h : '\n' ∉ s) :
    s.takeWhile (fun x => decide (x ≠ '\n')) = s := by
  rw [List.takeWhile_eq_self_iff]
  intro x hx
  simp only [decide_eq_true_eq]
  intro he; exact h (he ▸ hx)

theorem nlFree_dropWhile {s : Str} (h : '\n' ∉ s) :
    s.dropWhile (fun x => decide (x ≠ '\n')) = [] := by
  rw [List.dropWhile_eq_nil_iff]
  intro x hx
  simp only [decide_eq_true_eq]
  intro he; exact h (he ▸ hx)

/-- C6 (counterexample): the URI Namer keeps everything after the FIRST
fragment separator, not the last one: on the identifier a#b#c it returns b#c,
not the c the claim requires. -/
theorem c6_counterexample :
    local_name "a#b#c".data = "b#c".data ∧ local_name "a#b#c".data ≠ "c".data := by
  decide

/-- C6 (amended): for every newline-free input string, local_name keeps
everything after the first fragment separator when that part is nonempty, then
everything after the last path separator when that part is nonempty, and
otherwise returns its input unchanged; the three example identifiers map to
Foo; the function is total by construction. -/
theorem c6_local_name :
    (∀ s : Str, '\n' ∉ s → local_name s = specLocalName s) ∧
    local_name "http://ex.org/a#Foo".data = "Foo".data ∧
    local_name "http://ex.org/a/Foo".data = "Foo".data ∧
    local_name "Foo".data = "Foo".data := by
  refine ⟨?_, by decide, by decide, by decide⟩
  intro s hs
  have hsharp : sharpStep s =
      (if '#' ∈ s ∧ afterFirstChar '#' s ≠ [] then afterFirstChar '#' s else s) := by
    unfold sharpStep dotPlusGroup
    by_cases hm : '#' ∈ s
    · have hnl : '\n' ∉ afterFirstChar '#' s := nlFree_afterFirstChar '#' hs
      rw [nlFree_takeWhile hnl, nlFree_dropWhile hnl]
      by_cases hne : afterFirstChar '#' s = []
      · simp [hm, hne]
      · simp [hm, hne]
    · simp [hm]
  have hnt : '\n' ∉ (if '#' ∈ s ∧ afterFirstChar '#' s ≠ [] then afterFirstChar '#' s else s) := by
    by_cases hc : '#' ∈ s ∧ afterFirstChar '#' s ≠ []
    · simp only [if_pos hc]; exact nlFree_afterFirstChar '#' hs
    · simp only [if_neg hc]; exact hs
  have hslash : ∀ u : Str, '\n' ∉ u →
      slashStep u = (if '/' ∈ u ∧ afterLastChar '/' u ≠ [] then afterLastChar '/' u else u) := by
    intro u hu
    simp only [slashStep]
    rw [nlFree_takeWhile hu, nlFree_dropWhile hu, List.append_nil]
    by_cases hsl : '/' ∈ u
    · have hno : '/' ∉ afterLastChar '/' u := not_mem_afterLastChar '/' u
      by_cases hne : afterLastChar '/' u = []
      · simp [hsl, hne]
      · simp [hsl, hne, hno]
    · simp [hsl]
  unfold local_name specLocalName
  rw [hsharp, hslash _ hnt]

/-- C6 (witness). -/
theorem c6_witness :
    local_name "http://ex.org/a#Foo".data = specLocalName "http://ex.org/a#Foo".data :=
  c6_local_name.1 "http://ex.org/a#Foo".data (by decide)

theorem subDotPlus_firstDot :
    ∀ s : Str, '\n' ∉ s →
      (s.dropWhile (fun x => decide (x ≠ '.'))).tail ≠ [] →
      subDotPlus s = s.takeWhile (fun x => decide (x ≠ '.')) := by
  intro s
  induction s with
  | nil => intro _ h; simp at h
  | cons c cs ih =>
    intro hnl hrest
    have hnlcs : '\n' ∉ cs := fun hx => hnl (List.mem_cons_of_mem c hx)
    by_cases hc : c = '.'
    · subst hc
      rw [List.dropWhile_cons] at hrest
      simp only [decide_eq_true_eq, ne_eq, not_true_eq_false, if_false, List.tail_cons] at hrest
      have hmatch : dotPlusMatches cs := by
        unfold dotPlusMatches
        rw [nlFree_takeWhile hnlcs, nlFree_dropWhile hnlcs]
        exact ⟨hrest, Or.inl rfl⟩
      unfold subDotPlus
      rw [if_pos ⟨rfl, hmatch⟩, nlFree_dropWhile hnlcs, List.takeWhile_cons]
      simp
    · have hch : '\n' ∉ c :: cs := hnl
      rw [List.dropWhile_cons] at hrest
      simp only [decide_eq_true_eq, ne_eq, hc, not_false_eq_true, if_true] at hrest
      unfold subDotPlus
      rw [if_neg (by intro hand; exact hc hand.1), List.takeWhile_cons]
      simp only [decide_eq_true_eq, ne_eq, hc, not_false_eq_true, if_true]
      rw [ih hnlcs hrest]

theorem twoDots_dropWhile {s : Str} (h : 2 ≤ s.count '.') :
    (s.dropWhile (fun x => decide (x ≠ '.'))).tail ≠ [] := by
  induction s with
  | nil => simp at h
  | cons c cs ih =>
    by_cases hc : c = '.'
    · subst hc
      rw [List.dropWhile_cons]
      simp only [decide_eq_true_eq, ne_eq, not_true_eq_false, if_false, List.tail_cons]
      have hone : 1 ≤ List.count '.' cs := by
        rw [List.count_cons] at h
        simp only [beq_self_eq_true, if_true] at h
        omega
      have hmem : ('.' : Char) ∈ cs := List.count_pos_iff.mp (by omega)
      intro he; rw [he] at hmem; simp at hmem
    · rw [List.dropWhile_cons]
      simp only [decide_eq_true_eq, ne_eq, hc, not_false_eq_true, if_true]
      apply ih
      rw [List.count_cons] at h
      have hcc : (c == '.') = false := by simp [hc]
      rw [hcc] at h
      simp only [Bool.false_eq_true, if_false] at h
      omega

/-- C10 (counterexample): on a basename containing a newline, the expected name
is not the prefix before the first dot (the dot pattern cannot cross the
newline), so a file declaring a typed resource named exactly by that prefix
fails validation: basename x.(newline)y.z has more than one dot, the graph
declares a typed resource with local name x, yet validation returns nothing. -/
theorem c10_counterexample :
    validate_file "x.\ny.z".data gTypedX = none ∧
    2 ≤ ("x.\ny.z".data.count '.') ∧
    gTypedX.any (fun t => decide (t.p = rdfType) && decide (local_name (nodeStr t.s) =
      "x.\ny.z".data.takeWhile (fun x => decide (x ≠ '.')))) = true := by
  decide

/-- C10 (amended): for every newline-free basename containing more than one
dot, the expected resource name is the prefix before the FIRST dot: the file
validates exactly when some rdf:type statement has a subject whose local name
equals that prefix, and validation always returns either nothing or the entire
loaded statement set, never a proper subset. -/
theorem c10_validate (base : Str) (g : Graph) (hnl : '\n' ∉ base)
    (hdots : 2 ≤ base.count '.') :
    (validate_file base g = some g ↔
      ∃ t ∈ g, t.p = rdfType ∧
        local_name (nodeStr t.s) = base.takeWhile (fun x => decide (x ≠ '.'))) ∧
    (validate_file base g = none ∨ validate_file base g = some g) := by
  have hname : subDotPlus base = base.takeWhile (fun x => decide (x ≠ '.')) :=
    subDotPlus_firstDot base hnl (twoDots_dropWhile hdots)
  constructor
  · unfold validate_file
    rw [hname]
    by_cases hc : g.any (fun t => decide (t.p = rdfType) &&
        decide (local_name (nodeStr t.s) = base.takeWhile (fun x => decide (x ≠ '.')))) = true
    · rw [if_pos hc]
      rw [List.any_eq_true] at hc
      obtain ⟨t, ht, hp⟩ := hc
      simp only [Bool.and_eq_true, decide_eq_true_eq] at hp
      exact ⟨fun _ => ⟨t, ht, hp.1, hp.2⟩, fun _ => rfl⟩
    · rw [if_neg hc]
      constructor
      · intro h; exact absurd h (by simp)
      · intro ⟨t, ht, hp, hl⟩
        exact absurd (List.any_eq_true.mpr ⟨t, ht, by simp [hp, hl]⟩) hc
  · unfold validate_file
    by_cases hc : g.any (fun t => decide (t.p = rdfType) &&
        decide (local_name (nodeStr t.s) = subDotPlus base)) = true
    · rw [if_pos hc]; right; rfl
    · rw [if_neg hc]; left; rfl

/-- C10 (witness). -/
theorem c10_witness :
    validate_file "a.b.c".data ([] : Graph) = none ∨
    validate_file "a.b.c".data ([] : Graph) = some [] :=
  (c10_validate "a.b.c".data [] (by decide) (by decide)).2

/-- C5 (counterexample): the sibling-file search is a recursive walk: in a world
where directory d contains no files but has a subdirectory Foo.d containing the
file bar, the search for d/Foo selects d/Foo.d/bar — a file inside a
subdirectory, whose name before its extension is bar, not Foo. -/
theorem c5_counterexample :
    complete_file_path wSub "d/Foo".data =
      some ("d/Foo.d/bar".data, ⟨"bar".data, [], []⟩) ∧
    (wSub.filter (fun e => decide (e.path = "d".data))).all
      (fun e => e.files.isEmpty) = true ∧
    "bar".data.takeWhile (fun x => decide (x ≠ '.')) ≠ "Foo".data := by
  decide

/-- C5 (amended): the sibling-file search walks the referencing file's directory
recursively and selects the first file whose full path extends the searched
directory-plus-local-name followed by a dot; for a file directly inside the
directory this selection criterion holds exactly when the file's name starts
with the local name followed by a dot (so that its prefix before the first dot
equals a dot-free local name), but files inside subdirectories can be selected
as well. -/
theorem c5_search :
    (∀ (w : World) (inc p : Str) (fe : FileEnt),
      complete_file_path w inc = some (p, fe) →
      List.isPrefixOf (inc ++ dotC) p = true) ∧
    (∀ (d nm : Str) (f : FileEnt),
      List.isPrefixOf ((d ++ slashC ++ nm) ++ dotC) (d ++ slashC ++ f.name) = true ↔
      List.isPrefixOf (nm ++ dotC) f.name = true) := by
  constructor
  · intro w inc p fe h
    unfold complete_file_path at h
    obtain ⟨e, _, h1⟩ := findSome_mem _ _ _ h
    obtain ⟨f, _, h2⟩ := findSome_mem _ _ _ h1
    split at h2
    case isTrue hcond =>
      simp only [Option.some.injEq, Prod.mk.injEq] at h2
      obtain ⟨hp, _⟩ := h2
      rw [← hp]
      exact hcond
    case isFalse => simp at h2
  · intro d nm f
    rw [List.isPrefixOf_iff_prefix, List.isPrefixOf_iff_prefix,
      List.append_assoc (d ++ slashC) nm dotC]
    exact @List.prefix_append_right_inj Char (nm ++ dotC) f.name (d ++ slashC)

/-- C5 (witness). -/
theorem c5_witness :
    List.isPrefixOf ("d/Foo".data ++ dotC) "d/Foo.d/bar".data = true :=
  c5_search.1 wSub "d/Foo".data "d/Foo.d/bar".data ⟨"bar".data, [], []⟩ (by decide)

/-- C2 (confirmed): when the sibling-file search finds nothing the resolver
returns the state untouched; when a file is found but fails validation, the
final mapping, the three resolved-reference sets and the namespace registry are
all untouched (only the load counter advanced) and no error is raised (the
resolver is total in these cases); an unresolved reference surfaces in the
Reporter output whenever it is used in the final mapping and lacks its expected
typing statement. -/
theorem c2_retrieve (w : World) (fp : Str) (r : Node) (S : PState) :
    (complete_file_path w (dirname fp ++ slashC ++ local_name (nodeStr r)) = none →
      retrieve_references w fp r S = S) ∧
    (∀ (p : Str) (fe : FileEnt),
      complete_file_path w (dirname fp ++ slashC ++ local_name (nodeStr r)) = some (p, fe) →
      validate_file (basename p) (instantiateBNodes S.counter fe.graph) = none →
      (retrieve_references w fp r S).final_mapping = S.final_mapping ∧
      (retrieve_references w fp r S).classmap_set = S.classmap_set ∧
      (retrieve_references w fp r S).translationtable_set = S.translationtable_set ∧
      (retrieve_references w fp r S).database_set = S.database_set ∧
      (retrieve_references w fp r S).namespaces = S.namespaces) ∧
    (∀ (m : Graph) (pred ty x : Node),
      x ∈ objectsOf m pred → Stmt.mk x rdfType ty ∉ m →
      x ∈ log_references m pred ty) := by
  refine ⟨?_, ?_, ?_⟩
  · intro h
    unfold retrieve_references
    dsimp only
    rw [h]
  · intro p fe hsome hval
    unfold retrieve_references
    dsimp only
    rw [hsome]
    dsimp only
    rw [hval]
    exact ⟨rfl, rfl, rfl, rfl, rfl⟩
  · intro m pred ty x hx hnot
    unfold log_references
    rw [List.mem_filter]
    exact ⟨hx, decide_eq_true hnot⟩

/-- C2 (witness). -/
theorem c2_witness : retrieve_references [] "d/x.ttl".data nA initS = initS :=
  (c2_retrieve [] "d/x.ttl".data nA initS).1 (by decide)

/-- C7 (counterexample): with a scratch directory configured, the scratch-copy
fallback is attempted for a file whose content no format parses at any path —
a failure in no way attributable to path-character handling (the load fails at
the original path and at the scratch path alike): the attempt trace contains
the scratch path. -/
theorem c7_counterexample :
    load_graph_from_format lUnparseable (some "t".data) "d/f.ttl".data =
      (Except.error LoadErr.unrecognized,
        ["d/f.ttl".data, "t/tmp_rdf_file.rdf".data]) ∧
    tryFormats lUnparseable "d/f.ttl".data 0 = none ∧
    tryFormats lUnparseable "t/tmp_rdf_file.rdf".data 0 = none := by
  decide

/-- C7 (amended): a load failure on an existing file is fatal and propagates
exactly when no scratch directory is configured; whenever a scratch directory
is configured the scratch-copy fallback is attempted exactly once after ANY
load failure, with no check that the failure is attributable to
path-character handling, and the single retry's outcome (success or error) is
final. -/
theorem c7_fallback (L : Loader) (p td : Str) (e : LoadErr)
    (hex : (L.content p).isSome = true) (hload : load_graph L p = .error e) :
    load_graph_from_format L none p = (.error e, [p]) ∧
    load_graph_from_format L (some td) p =
      (load_graph (copyTo L p (td ++ slashC ++ tmpName)) (td ++ slashC ++ tmpName),
        [p, td ++ slashC ++ tmpName]) := by
  cases hc : L.content p with
  | none => rw [hc] at hex; simp at hex
  | some c =>
    constructor
    · unfold load_graph_from_format
      rw [hc]
      dsimp only
      rw [hload]
    · unfold load_graph_from_format
      rw [hc]
      dsimp only
      rw [hload]

/-- C7 (witness). -/
theorem c7_witness :
    load_graph_from_format lUnparseable none "d/f.ttl".data =
      (Except.error LoadErr.unrecognized, ["d/f.ttl".data]) :=
  (c7_fallback lUnparseable "d/f.ttl".data "t".data .unrecognized
    (by decide) (by decide)).1

theorem orphanStep_subset (m : Graph) (x : Node) : orphanStep m x ⊆ m := by
  unfold orphanStep
  split
  · exact (List.filter_sublist _).subset
  · exact fun a h => h

theorem foldl_orphan_subset (sl : List Node) (m : Graph) : sl.foldl orphanStep m ⊆ m :=
  foldl_pres (fun g => g ⊆ m) orphanStep
    (fun g x hg => (orphanStep_subset g x).trans hg) sl m (fun _ h => h)

theorem clear_orphan_subset (m : Graph) : clear_orphan_blank_nodes m ⊆ m :=
  foldl_orphan_subset _ m

theorem noBnodeChain_mono {m m' : Graph} (hsub : m' ⊆ m) (h : noBnodeChain m) :
    noBnodeChain m' :=
  fun t ht => h t (hsub ht)

theorem orphanStep_obj {m : Graph} {b : Node} (x : Node) (hch : noBnodeChain m)
    (hb : b.isBnode = true) :
    b ∈ (orphanStep m x).map (fun t => t.o) ↔ b ∈ m.map (fun t => t.o) := by
  unfold orphanStep
  split
  case isTrue hx =>
    constructor
    · intro h
      rw [List.mem_map] at h ⊢
      obtain ⟨t, ht, hto⟩ := h
      exact ⟨t, (List.filter_sublist _).mem ht, hto⟩
    · intro h
      rw [List.mem_map] at h ⊢
      obtain ⟨t, ht, hto⟩ := h
      refine ⟨t, List.mem_filter.mpr ⟨ht, ?_⟩, hto⟩
      apply decide_eq_true
      intro hts
      have hob : t.o.isBnode = false := hch t ht (by rw [hts]; exact hx.1)
      rw [hto, hb] at hob
      exact Bool.noConfusion hob
  case isFalse => exact Iff.rfl

theorem orphan_fold :
    ∀ (sl : List Node) (m : Graph), noBnodeChain m →
      (∀ b : Node, b.isBnode = true → (∃ t ∈ m, t.s = b) →
        b ∈ sl ∨ b ∈ m.map (fun t => t.o)) →
      ∀ b : Node, b.isBnode = true → (∃ t ∈ sl.foldl orphanStep m, t.s = b) →
        b ∈ (sl.foldl orphanStep m).map (fun t => t.o) := by
  intro sl
  induction sl with
  | nil =>
    intro m _ hcov b hb hsubj
    rcases hcov b hb hsubj with h | h
    · simp at h
    · exact h
  | cons x sl ih =>
    intro m hch hcov b hb hsubj
    rw [List.foldl_cons] at hsubj ⊢
    have hsub1 : orphanStep m x ⊆ m := orphanStep_subset m x
    refine ih (orphanStep m x) (noBnodeChain_mono hsub1 hch) ?_ b hb hsubj
    intro c hc hcsubj
    obtain ⟨t, ht, hts⟩ := hcsubj
    rcases hcov c hc ⟨t, hsub1 ht, hts⟩ with hmem | hobj
    · rcases List.mem_cons.mp hmem with hcx | hcsl
      · right
        rw [hcx] at hc hts ⊢
        rw [orphanStep_obj x hch hc]
        unfold orphanStep at ht
        split at ht
        case isTrue hx =>
          rw [List.mem_filter] at ht
          have := of_decide_eq_true ht.2
          exact absurd hts this
        case isFalse hx =>
          by_contra hno
          exact hx ⟨hc, hno⟩
      · exact Or.inl hcsl
    · right
      rw [orphanStep_obj x hch hc]
      exact hobj

/-- C3 (counterexample): the orphan pass is a single order-sensitive sweep: on
the mapping produced by merging a file whose blank node b1 points at blank node
b2, b1 is removed after b2 was already inspected, so the freshly orphaned b2
survives as a blank-node subject that is the object of no statement — both in
the pass applied directly to the chain mapping and in the mapping the merge run
itself produces. -/
theorem c3_counterexample :
    clear_orphan_blank_nodes
        [⟨.bnode "b2".data, nP, nO⟩, ⟨.bnode "b1".data, nP, .bnode "b2".data⟩] =
      [⟨.bnode "b2".data, nP, nO⟩] ∧
    chainState.final_mapping.any
      (fun t => decide (t.s = Node.bnode "0_b2".data)) = true ∧
    chainState.final_mapping.all
      (fun t => decide (t.o ≠ Node.bnode "0_b2".data)) = true := by
  decide

/-- C3 (amended): after the orphan blank-node cleanup pass, every blank node
occurring as the subject of a statement also occurs as the object of one,
provided no statement of the mapping links a blank-node subject to a blank-node
object; when orphaned blank nodes form such chains, the single pass can leave a
blank node orphaned (see the counterexample). -/
theorem c3_orphans (m : Graph) (hch : noBnodeChain m) :
    ∀ b : Node, b.isBnode = true → (∃ t ∈ clear_orphan_blank_nodes m, t.s = b) →
      ∃ t ∈ clear_orphan_blank_nodes m, t.o = b := by
  intro b hb hsubj
  have hcov : ∀ c : Node, c.isBnode = true → (∃ t ∈ m, t.s = c) →
      c ∈ m.map (fun t : Stmt => t.s) ∨ c ∈ m.map (fun t : Stmt => t.o) := by
    intro c _ hcsubj
    obtain ⟨t, ht, hts⟩ := hcsubj
    exact Or.inl (List.mem_map.mpr ⟨t, ht, hts⟩)
  have h := orphan_fold (m.map (fun t : Stmt => t.s)) m hch hcov b hb hsubj
  rw [List.mem_map] at h
  obtain ⟨t, ht, hto⟩ := h
  exact ⟨t, ht, hto⟩

/-- C3 (witness). -/
theorem c3_witness :
    ∃ t ∈ clear_orphan_blank_nodes [⟨nA, nP, .bnode "b1".data⟩, ⟨.bnode "b1".data, nP, nO⟩],
      t.o = Node.bnode "b1".data :=
  c3_orphans [⟨nA, nP, .bnode "b1".data⟩, ⟨.bnode "b1".data, nP, nO⟩] (by decide)
    (Node.bnode "b1".data) (by decide) (by decide)

theorem clear_d2rq_subset (m : Graph) (ent r : Node) : clear_d2rq_entity m ent r ⊆ m := by
  unfold clear_d2rq_entity
  split
  · exact fun a h => h
  · exact (List.filter_sublist _).subset

theorem bridge_fold (m0 : Graph) (H : targetsNotReferrers m0) :
    ∀ (ts : List Stmt) (g : Graph), g ⊆ m0 → (∀ t ∈ ts, t ∈ m0 ∧ refPred t.p) →
      (bridgePass g ts ⊆ g) ∧
      (∀ u ∈ g, isTarget m0 u.s → u ∈ bridgePass g ts) ∧
      (∀ t ∈ ts, t ∈ bridgePass g ts → typedIn (bridgePass g ts) t.o) := by
  intro ts
  induction ts with
  | nil =>
    intro g _ _
    refine ⟨fun a h => h, fun u hu _ => hu, ?_⟩
    intro t ht
    simp at ht
  | cons t0 ts ih =>
    intro g hg hcov
    have ht0 : t0 ∈ m0 ∧ refPred t0.p := hcov t0 (List.mem_cons_self t0 ts)
    have hts : ∀ t ∈ ts, t ∈ m0 ∧ refPred t.p :=
      fun t ht => hcov t (List.mem_cons_of_mem t0 ht)
    have hg1sub : clear_d2rq_entity g t0.s t0.o ⊆ g := clear_d2rq_subset g t0.s t0.o
    have hpass : bridgePass g (t0 :: ts) = bridgePass (clear_d2rq_entity g t0.s t0.o) ts := by
      unfold bridgePass
      rw [List.foldl_cons]
    obtain ⟨ihsub, ihpres, ihprop⟩ := ih (clear_d2rq_entity g t0.s t0.o) (hg1sub.trans hg) hts
    have hkeep : ∀ u ∈ g, isTarget m0 u.s → u ∈ clear_d2rq_entity g t0.s t0.o := by
      intro u hu htar
      unfold clear_d2rq_entity
      split
      · exact hu
      · rw [List.mem_filter]
        refine ⟨hu, ?_⟩
        apply decide_eq_true
        obtain ⟨v, hv, hvp, hvo⟩ := htar
        intro hus
        exact H v hv t0 ht0.1 hvp ht0.2 (by rw [hvo, hus])
    refine ⟨?_, ?_, ?_⟩
    · rw [hpass]
      exact ihsub.trans hg1sub
    · intro u hu htar
      rw [hpass]
      exact ihpres u (hkeep u hu htar) htar
    · intro t htmem htfold
      rcases List.mem_cons.mp htmem with rfl | htl
      · by_cases hty : typedIn g t.o
        · obtain ⟨u, hu, hus, hup⟩ := hty
          have htar : isTarget m0 u.s := ⟨t, ht0.1, ht0.2, hus.symm⟩
          have hu1 : u ∈ clear_d2rq_entity g t.s t.o := hkeep u hu htar
          have hufold : u ∈ bridgePass g (t :: ts) := by
            rw [hpass]
            exact ihpres u hu1 htar
          exact ⟨u, hufold, hus, hup⟩
        · exfalso
          have hclear : clear_d2rq_entity g t.s t.o = g.filter (fun v => decide (v.s ≠ t.s)) := by
            unfold clear_d2rq_entity
            rw [if_neg]
            intro hex
            obtain ⟨u, hu, hus, hup⟩ := hex
            exact hty ⟨u, hu, hus, hup⟩
          rw [hpass, hclear] at htfold
          have := ihsub
          rw [hclear] at this
          have htf : t ∈ g.filter (fun v => decide (v.s ≠ t.s)) := this htfold
          rw [List.mem_filter] at htf
          exact of_decide_eq_true htf.2 rfl
      · rw [hpass] at htfold ⊢
        exact ihprop t htl htfold

/-- C4 (counterexample): the dangling-bridge pass examines each pair once: in
the merged bridge file, entity A (typed as a class map, referenced by B) is
removed because its own reference X is untyped, but only after the pair
(B, A) was already judged — the output keeps B's reference to A while A's
typing statement is gone. -/
theorem c4_counterexample :
    (Stmt.mk nB d2rqRefersToClassMap nA ∈ bridgeResult) ∧
    bridgeResult.all (fun u => !(decide (u.s = nA) && decide (u.p = rdfType))) = true := by
  decide

/-- C4 (amended): after the dangling property-bridge pass, every remaining
statement using one of the three reference predicates has an object carrying an
rdf:type statement in the final mapping, provided no reference target is itself
the subject of a reference statement; when a removed referencing entity carries
the typing statement of another reference's target, the single pass can leave
that other reference dangling (see the counterexample). -/
theorem c4_bridges (m : Graph) (H : targetsNotReferrers m) :
    ∀ t ∈ clear_orphan_property_bridges m, refPred t.p →
      typedIn (clear_orphan_property_bridges m) t.o := by
  have hdef : clear_orphan_property_bridges m =
      bridgePass
        (bridgePass (bridgePass m (m.filter (fun t => decide (t.p = d2rqRefersToClassMap))))
          ((bridgePass m (m.filter (fun t => decide (t.p = d2rqRefersToClassMap)))).filter
            (fun t => decide (t.p = d2rqTranslateWith))))
        ((bridgePass (bridgePass m (m.filter (fun t => decide (t.p = d2rqRefersToClassMap))))
          ((bridgePass m (m.filter (fun t => decide (t.p = d2rqRefersToClassMap)))).filter
            (fun t => decide (t.p = d2rqTranslateWith)))).filter
          (fun t => decide (t.p = d2rqDataStorage))) := rfl
  set ts1 := m.filter (fun t => decide (t.p = d2rqRefersToClassMap)) with hts1
  set m1 := bridgePass m ts1 with hm1
  set ts2 := m1.filter (fun t => decide (t.p = d2rqTranslateWith)) with hts2
  set m2 := bridgePass m1 ts2 with hm2
  set ts3 := m2.filter (fun t => decide (t.p = d2rqDataStorage)) with hts3
  have hcov1 : ∀ t ∈ ts1, t ∈ m ∧ refPred t.p := by
    intro t ht
    rw [hts1, List.mem_filter] at ht
    exact ⟨ht.1, Or.inl (of_decide_eq_true ht.2)⟩
  have A1 := bridge_fold m H ts1 m (fun a h => h) hcov1
  have hm1sub : m1 ⊆ m := A1.1
  have hcov2 : ∀ t ∈ ts2, t ∈ m ∧ refPred t.p := by
    intro t ht
    rw [hts2, List.mem_filter] at ht
    exact ⟨hm1sub ht.1, Or.inr (Or.inl (of_decide_eq_true ht.2))⟩
  have A2 := bridge_fold m H ts2 m1 hm1sub hcov2
  have hm2sub : m2 ⊆ m1 := A2.1
  have hcov3 : ∀ t ∈ ts3, t ∈ m ∧ refPred t.p := by
    intro t ht
    rw [hts3, List.mem_filter] at ht
    exact ⟨hm1sub (hm2sub ht.1), Or.inr (Or.inr (of_decide_eq_true ht.2))⟩
  have A3 := bridge_fold m H ts3 m2 (hm2sub.trans hm1sub) hcov3
  intro t htm hrp
  rw [hdef] at htm ⊢
  have htm3 : t ∈ bridgePass m2 ts3 := htm
  have htm2 : t ∈ m2 := A3.1 htm3
  have htm1 : t ∈ m1 := hm2sub htm2
  have htm0 : t ∈ m := hm1sub htm1
  rcases hrp with hp1 | hp2 | hp3
  · have hin1 : t ∈ ts1 := by
      rw [hts1, List.mem_filter]
      exact ⟨htm0, decide_eq_true hp1⟩
    obtain ⟨u, hu, hus, hup⟩ := A1.2.2 t hin1 htm1
    have htar : isTarget m u.s := ⟨t, htm0, Or.inl hp1, hus.symm⟩
    have hu2 : u ∈ m2 := A2.2.1 u hu htar
    have hu3 : u ∈ bridgePass m2 ts3 := A3.2.1 u hu2 htar
    exact ⟨u, hu3, hus, hup⟩
  · have hin2 : t ∈ ts2 := by
      rw [hts2, List.mem_filter]
      exact ⟨htm1, decide_eq_true hp2⟩
    obtain ⟨u, hu, hus, hup⟩ := A2.2.2 t hin2 htm2
    have htar : isTarget m u.s := ⟨t, htm0, Or.inr (Or.inl hp2), hus.symm⟩
    have hu3 : u ∈ bridgePass m2 ts3 := A3.2.1 u hu htar
    exact ⟨u, hu3, hus, hup⟩
  · have hin3 : t ∈ ts3 := by
      rw [hts3, List.mem_filter]
      exact ⟨htm2, decide_eq_true hp3⟩
    exact A3.2.2 t hin3 htm3

/-- C4 (witness). -/
theorem c4_witness :
    typedIn
      (clear_orphan_property_bridges
        [⟨nB, d2rqRefersToClassMap, nA⟩, ⟨nA, rdfType, d2rqClassMap⟩]) nA :=
  c4_bridges [⟨nB, d2rqRefersToClassMap, nA⟩, ⟨nA, rdfType, d2rqClassMap⟩]
    (by decide) ⟨nB, d2rqRefersToClassMap, nA⟩ (by decide) (by decide)

theorem mem_graphAdd {m : Graph} {u t : Stmt} : t ∈ graphAdd m u ↔ t ∈ m ∨ t = u := by
  unfold graphAdd
  split
  case isTrue h =>
    constructor
    · intro hm
      exact Or.inl hm
    · intro h2
      rcases h2 with h2 | h2
      · exact h2
      · rw [h2]; exact h
  case isFalse h => rw [List.mem_append, List.mem_singleton]

theorem subset_graphAdd (m : Graph) (u : Stmt) : m ⊆ graphAdd m u :=
  fun _ h => mem_graphAdd.mpr (Or.inl h)

theorem mem_setInsert {l : List Node} {y x : Node} :
    x ∈ setInsert l y ↔ x ∈ l ∨ x = y := by
  unfold setInsert
  split
  case isTrue h =>
    constructor
    · intro hm
      exact Or.inl hm
    · intro h2
      rcases h2 with h2 | h2
      · exact h2
      · rw [h2]; exact h
  case isFalse h => rw [List.mem_append, List.mem_singleton]

theorem subset_setInsert (l : List Node) (y : Node) : l ⊆ setInsert l y :=
  fun _ h => mem_setInsert.mpr (Or.inl h)

theorem mem_foldl_graphAdd :
    ∀ (l : List Stmt) (m : Graph) (t : Stmt), t ∈ l.foldl graphAdd m → t ∈ m ∨ t ∈ l := by
  intro l
  induction l with
  | nil => intro m t h; exact Or.inl h
  | cons u l ih =>
    intro m t h
    rw [List.foldl_cons] at h
    rcases ih (graphAdd m u) t h with h2 | h2
    · rcases mem_graphAdd.mp h2 with h3 | h3
      · exact Or.inl h3
      · right; rw [h3]; exact List.mem_cons_self u l
    · exact Or.inr (List.mem_cons_of_mem u h2)

theorem subset_foldl_graphAdd (l : List Stmt) (m : Graph) : m ⊆ l.foldl graphAdd m :=
  foldl_pres (fun b => m ⊆ b) graphAdd
    (fun b u hb _ hx => subset_graphAdd b u (hb hx)) l m (fun _ h => h)

theorem subset_importStep (g m : Graph) (t : Stmt) : m ⊆ importStep g m t := by
  unfold importStep
  dsimp only
  split
  · intro a ha
    exact subset_foldl_graphAdd _ _ (subset_graphAdd m t ha)
  · exact subset_graphAdd m t

theorem subset_importRef (g : Graph) (r : Node) (m : Graph) : m ⊆ importRef g r m :=
  foldl_pres (fun b => m ⊆ b) (importStep g)
    (fun b u hb _ hx => subset_importStep g b u (hb hx)) _ m (fun _ h => h)

theorem mem_importStep {g m : Graph} {v t : Stmt} (h : t ∈ importStep g m v) :
    t ∈ m ∨ t = v ∨ (t ∈ g ∧ t.s.isBnode = true) := by
  unfold importStep at h
  dsimp only at h
  split at h
  case isTrue hb =>
    rcases mem_foldl_graphAdd _ _ _ h with h2 | h2
    · rcases mem_graphAdd.mp h2 with h3 | h3
      · exact Or.inl h3
      · exact Or.inr (Or.inl h3)
    · rw [List.mem_filter] at h2
      have hts := of_decide_eq_true h2.2
      right; right
      exact ⟨h2.1, by rw [hts]; exact hb⟩
  case isFalse =>
    rcases mem_graphAdd.mp h with h2 | h2
    · exact Or.inl h2
    · exact Or.inr (Or.inl h2)

theorem mem_importRef {g : Graph} {r : Node} {m : Graph} {t : Stmt}
    (h : t ∈ importRef g r m) : t ∈ m ∨ (t ∈ g ∧ (t.s = r ∨ t.s.isBnode = true)) := by
  unfold importRef at h
  have hgen : ∀ (l : List Stmt) (m : Graph), (∀ v ∈ l, v ∈ g ∧ v.s = r) →
      ∀ u ∈ l.foldl (importStep g) m,
        u ∈ m ∨ (u ∈ g ∧ (u.s = r ∨ u.s.isBnode = true)) := by
    intro l
    induction l with
    | nil => intro m _ u hu; exact Or.inl hu
    | cons v l ih =>
      intro m hl u hu
      rw [List.foldl_cons] at hu
      have hv := hl v (List.mem_cons_self v l)
      rcases ih (importStep g m v) (fun x hx => hl x (List.mem_cons_of_mem v hx)) u hu with
        h2 | h2
      · rcases mem_importStep h2 with h3 | h3 | h3
        · exact Or.inl h3
        · right; rw [h3]; exact ⟨hv.1, Or.inl hv.2⟩
        · right; exact ⟨h3.1, Or.inr h3.2⟩
      · exact Or.inr h2
  refine hgen _ m ?_ t h
  intro v hv
  rw [List.mem_filter] at hv
  exact ⟨hv.1, of_decide_eq_true hv.2⟩

theorem validate_some {b : Str} {g g2 : Graph} (h : validate_file b g = some g2) : g2 = g := by
  unfold validate_file at h
  split at h
  · exact (Option.some.inj h).symm
  · cases h

theorem complete_mem {w : World} {inc p : Str} {fe : FileEnt}
    (h : complete_file_path w inc = some (p, fe)) : ∃ e ∈ w, fe ∈ e.files := by
  unfold complete_file_path at h
  obtain ⟨e, he, h1⟩ := findSome_mem _ _ _ h
  obtain ⟨f, hf, h2⟩ := findSome_mem _ _ _ h1
  split at h2
  · simp only [Option.some.injEq, Prod.mk.injEq] at h2
    refine ⟨e, ?_, ?_⟩
    · unfold walkDir at he
      exact (List.filter_sublist _).subset he
    · rw [← h2.2]; exact hf
  · simp at h2

theorem retrieve_shape (w : World) (fp : Str) (r : Node) (S : PState) :
    (retrieve_references w fp r S).classmap_set = S.classmap_set ∧
    (retrieve_references w fp r S).translationtable_set = S.translationtable_set ∧
    (retrieve_references w fp r S).database_set = S.database_set ∧
    S.final_mapping ⊆ (retrieve_references w fp r S).final_mapping ∧
    (∀ t ∈ (retrieve_references w fp r S).final_mapping,
      t ∈ S.final_mapping ∨ t.s = r ∨ t.s.isBnode = true) ∧
    (∀ t ∈ (retrieve_references w fp r S).final_mapping,
      t ∈ S.final_mapping ∨
        ∃ e ∈ w, ∃ f ∈ e.files, t ∈ instantiateBNodes S.counter f.graph) := by
  unfold retrieve_references
  dsimp only
  cases hc : complete_file_path w (dirname fp ++ slashC ++ local_name (nodeStr r)) with
  | none =>
    exact ⟨rfl, rfl, rfl, fun _ h => h, fun t ht => Or.inl ht, fun t ht => Or.inl ht⟩
  | some pf =>
    obtain ⟨p, fe⟩ := pf
    dsimp only
    cases hv : validate_file (basename p) (instantiateBNodes S.counter fe.graph) with
    | none =>
      exact ⟨rfl, rfl, rfl, fun _ h => h, fun t ht => Or.inl ht, fun t ht => Or.inl ht⟩
    | some g =>
      have hg : g = instantiateBNodes S.counter fe.graph := validate_some hv
      refine ⟨rfl, rfl, rfl, subset_importRef g r S.final_mapping, ?_, ?_⟩
      · intro t ht
        rcases mem_importRef ht with h | ⟨_, hs⟩
        · exact Or.inl h
        · exact Or.inr hs
      · intro t ht
        rcases mem_importRef ht with h | ⟨hg2, _⟩
        · exact Or.inl h
        · right
          obtain ⟨e, he, hf⟩ := complete_mem hc
          exact ⟨e, he, fe, hf, by rw [← hg]; exact hg2⟩

theorem parse_file_none (w : World) (d : Str) (fe : FileEnt) (S : PState)
    (hv : validate_file (basename (d ++ slashC ++ fe.name))
      (instantiateBNodes S.counter fe.graph) = none) :
    parse_file w d fe S =
      { S with counter := S.counter + 1,
               final_mapping := clear_orphan_blank_nodes S.final_mapping } := by
  unfold parse_file
  dsimp only
  rw [hv]

theorem parse_file_some (w : World) (d : Str) (fe : FileEnt) (S : PState) (g : Graph)
    (hv : validate_file (basename (d ++ slashC ++ fe.name))
      (instantiateBNodes S.counter fe.graph) = some g) :
    parse_file w d fe S =
      { (objectsOf g d2rqDataStorage).foldl (dbaseStep w (d ++ slashC ++ fe.name))
          ((objectsOf g d2rqTranslateWith).foldl (ttableStep w (d ++ slashC ++ fe.name))
            ((objectsOf g d2rqRefersToClassMap).foldl
              (classmapStep w (d ++ slashC ++ fe.name))
              (add_declared_namespaces fe.ns
                (g.foldl copyStep { S with counter := S.counter + 1 })))) with
        final_mapping :=
          clear_orphan_blank_nodes
            (((objectsOf g d2rqDataStorage).foldl (dbaseStep w (d ++ slashC ++ fe.name))
              ((objectsOf g d2rqTranslateWith).foldl (ttableStep w (d ++ slashC ++ fe.name))
                ((objectsOf g d2rqRefersToClassMap).foldl
                  (classmapStep w (d ++ slashC ++ fe.name))
                  (add_declared_namespaces fe.ns
                    (g.foldl copyStep { S with counter := S.counter + 1 }))))).final_mapping) } := by
  unfold parse_file
  dsimp only
  rw [hv]

/-- C9 (confirmed): merging a file that fails validation still runs the orphan
blank-node cleanup pass: the resulting final mapping is exactly the cleanup of
the previous one (hence a subset — no statement is ever added), the three
resolved-reference sets and the namespace registry are untouched; and the merge
is not a no-op in general: on the state left by the blank-node chain file, a
subsequent merge of an invalid file strictly shrinks the final mapping. -/
theorem c9_invalid_merge (w : World) (d : Str) (fe : FileEnt) (S : PState)
    (hv : validate_file (basename (d ++ slashC ++ fe.name))
      (instantiateBNodes S.counter fe.graph) = none) :
    ((parse_file w d fe S).final_mapping = clear_orphan_blank_nodes S.final_mapping ∧
     (parse_file w d fe S).final_mapping ⊆ S.final_mapping ∧
     (parse_file w d fe S).classmap_set = S.classmap_set ∧
     (parse_file w d fe S).translationtable_set = S.translationtable_set ∧
     (parse_file w d fe S).database_set = S.database_set ∧
     (parse_file w d fe S).namespaces = S.namespaces) ∧
    (chainThenInvalid.final_mapping ≠ chainState.final_mapping ∧
     chainThenInvalid.final_mapping ⊆ chainState.final_mapping ∧
     chainThenInvalid.classmap_set = chainState.classmap_set ∧
     chainThenInvalid.translationtable_set = chainState.translationtable_set ∧
     chainThenInvalid.database_set = chainState.database_set ∧
     chainThenInvalid.namespaces = chainState.namespaces) := by
  constructor
  · rw [parse_file_none w d fe S hv]
    exact ⟨rfl, clear_orphan_subset S.final_mapping, rfl, rfl, rfl, rfl⟩
  · refine ⟨by decide, ?_, by decide, by decide, by decide, by decide⟩
    intro t ht
    have hd : chainThenInvalid.final_mapping = [⟨.iri "http://x/Foo".data, rdfType,
        .iri "http://x/T".data⟩] := by decide
    rw [hd] at ht
    have : t ∈ chainState.final_mapping := by
      rcases List.mem_singleton.mp ht with rfl
      decide
    exact this

/-- C9 (witness). -/
theorem c9_witness :
    (parse_file [] dirD fInvalid chainState).final_mapping =
      clear_orphan_blank_nodes chainState.final_mapping :=
  (c9_invalid_merge [] dirD fInvalid chainState (by decide)).1.1

/-- C1 (counterexample): the copy loop only suppresses subjects found in the
translation-table and data-store sets, not in the class-map set: after merging
a file that types A as a class map (putting A in the class-map resolved set),
merging a second file that speaks about A still adds the statement about A to
the final mapping. -/
theorem c1_counterexample :
    (nA ∈ stateAfterDecl.classmap_set) ∧
    (Stmt.mk nA nP nO ∉ stateAfterDecl.final_mapping) ∧
    stateAfterBoth = parse_file [] dirD fAboutA stateAfterDecl ∧
    (Stmt.mk nA nP nO ∈ stateAfterBoth.final_mapping) := by
  decide

/-- C1 (amended): the suppression is by the translation-table and data-store
sets only (class-map membership does not suppress copying); a resource
identifier that is a member of all three resolved-reference sets and is not a
blank node never gains a statement with that subject from any subsequent merge
of a freshly parsed file. -/
theorem c1_dedup (w : World) (d : Str) (fe : FileEnt) (S : PState) (x : Node)
    (hcm : x ∈ S.classmap_set) (htt : x ∈ S.translationtable_set)
    (hdb : x ∈ S.database_set) (hnb : x.isBnode = false) :
    ∀ t : Stmt, t.s = x → t ∈ (parse_file w d fe S).final_mapping →
      t ∈ S.final_mapping := by
  set P : PState → Prop := fun T =>
    (∀ u : Stmt, u.s = x → u ∈ T.final_mapping → u ∈ S.final_mapping) ∧
    x ∈ T.classmap_set ∧ x ∈ T.translationtable_set ∧ x ∈ T.database_set with hP
  have hP0 : P { S with counter := S.counter + 1 } :=
    ⟨fun u _ hu => hu, hcm, htt, hdb⟩
  have hcopy : ∀ T u, P T → P (copyStep T u) := by
    intro T u hT
    unfold copyStep
    dsimp only
    have hS1 : P (if u.s ∈ T.translationtable_set ∨ u.s ∈ T.database_set then T
        else { T with final_mapping := graphAdd T.final_mapping u }) := by
      split
      · exact hT
      case isFalse hg =>
        refine ⟨?_, hT.2.1, hT.2.2.1, hT.2.2.2⟩
        intro v hvs hv
        rcases mem_graphAdd.mp hv with h2 | h2
        · exact hT.1 v hvs h2
        · exfalso
          apply hg
          left
          rw [h2] at hvs
          rw [hvs]
          exact hT.2.2.1
    split
    · exact ⟨hS1.1, mem_setInsert.mpr (Or.inl hS1.2.1), hS1.2.2.1, hS1.2.2.2⟩
    · exact hS1
  have hretr : ∀ T (fp : Str) (r : Node), P T → r ≠ x →
      P (retrieve_references w fp r T) := by
    intro T fp r hT hne
    obtain ⟨e1, e2, e3, _, hmem, _⟩ := retrieve_shape w fp r T
    refine ⟨?_, by rw [e1]; exact hT.2.1, by rw [e2]; exact hT.2.2.1,
      by rw [e3]; exact hT.2.2.2⟩
    intro v hvs hv
    rcases hmem v hv with h2 | h2 | h2
    · exact hT.1 v hvs h2
    · exact absurd (h2.symm.trans hvs) hne
    · rw [hvs] at h2
      rw [h2] at hnb
      exact Bool.noConfusion hnb
  have hcmstep : ∀ T (fp : Str) (r : Node), P T → P (classmapStep w fp T r) := by
    intro T fp r hT
    unfold classmapStep
    split
    · exact hT
    case isFalse hnotin =>
      have hne : r ≠ x := fun he => hnotin (he ▸ hT.2.1)
      refine hretr _ fp r ?_ hne
      exact ⟨hT.1, mem_setInsert.mpr (Or.inl hT.2.1), hT.2.2.1, hT.2.2.2⟩
  have httstep : ∀ T (fp : Str) (r : Node), P T → P (ttableStep w fp T r) := by
    intro T fp r hT
    unfold ttableStep
    split
    · exact hT
    case isFalse hnotin =>
      have hne : r ≠ x := fun he => hnotin (he ▸ hT.2.2.1)
      refine hretr _ fp r ?_ hne
      exact ⟨hT.1, hT.2.1, mem_setInsert.mpr (Or.inl hT.2.2.1), hT.2.2.2⟩
  have hdbstep : ∀ T (fp : Str) (r : Node), P T → P (dbaseStep w fp T r) := by
    intro T fp r hT
    unfold dbaseStep
    split
    · exact hT
    case isFalse hnotin =>
      have hne : r ≠ x := fun he => hnotin (he ▸ hT.2.2.2)
      refine hretr _ fp r ?_ hne
      exact ⟨hT.1, hT.2.1, hT.2.2.1, mem_setInsert.mpr (Or.inl hT.2.2.2)⟩
  intro t hts htm
  cases hv : validate_file (basename (d ++ slashC ++ fe.name))
      (instantiateBNodes S.counter fe.graph) with
  | none =>
    rw [parse_file_none w d fe S hv] at htm
    exact clear_orphan_subset S.final_mapping htm
  | some g =>
    rw [parse_file_some w d fe S g hv] at htm
    have h1 : P (g.foldl copyStep { S with counter := S.counter + 1 }) :=
      foldl_pres P copyStep hcopy g _ hP0
    have h2 : P (add_declared_namespaces fe.ns
        (g.foldl copyStep { S with counter := S.counter + 1 })) :=
      ⟨h1.1, h1.2.1, h1.2.2.1, h1.2.2.2⟩
    have h3 := foldl_pres P (classmapStep w (d ++ slashC ++ fe.name))
      (fun T r hT => hcmstep T _ r hT) (objectsOf g d2rqRefersToClassMap) _ h2
    have h4 := foldl_pres P (ttableStep w (d ++ slashC ++ fe.name))
      (fun T r hT => httstep T _ r hT) (objectsOf g d2rqTranslateWith) _ h3
    have h5 := foldl_pres P (dbaseStep w (d ++ slashC ++ fe.name))
      (fun T r hT => hdbstep T _ r hT) (objectsOf g d2rqDataStorage) _ h4
    exact h5.1 t hts (clear_orphan_subset _ htm)

/-- C1 (witness). -/
theorem c1_witness :
    Stmt.mk nA nP nO ∈
      (⟨[⟨nA, nP, nO⟩], [nA], [nA], [nA], [], 0⟩ : PState).final_mapping :=
  c1_dedup [] dirD fInvalid ⟨[⟨nA, nP, nO⟩], [nA], [nA], [nA], [], 0⟩ nA
    (by decide) (by decide) (by decide) (by decide) ⟨nA, nP, nO⟩ (by decide) (by decide)

theorem renameNode_id {n : Node} (h : n.isBnode = false) (k : Nat) : renameNode k n = n := by
  cases n with
  | iri s => rfl
  | lit s => rfl
  | bnode s => simp [Node.isBnode] at h

theorem instantiate_id {g : Graph} (h : bnodeFreeGraph g) (k : Nat) :
    instantiateBNodes k g = g := by
  unfold instantiateBNodes
  induction g with
  | nil => rfl
  | cons t g ih =>
    have ht := h t (List.mem_cons_self t g)
    have hg2 : bnodeFreeGraph g := fun u hu => h u (List.mem_cons_of_mem t hu)
    rw [List.map_cons, ih hg2, renameNode_id ht.1 k, renameNode_id ht.2 k]

theorem cleanup_id {m : Graph} (h : bnodeFreeGraph m) : clear_orphan_blank_nodes m = m := by
  unfold clear_orphan_blank_nodes
  apply foldl_fix
  intro x hx
  rw [List.mem_map] at hx
  obtain ⟨t, ht, hts⟩ := hx
  unfold orphanStep
  rw [if_neg]
  intro hcond
  have hf := (h t ht).1
  rw [hts] at hf
  rw [hf] at hcond
  exact Bool.noConfusion hcond.1

theorem graphAdd_self {m : Graph} {t : Stmt} (h : t ∈ m) : graphAdd m t = m := by
  unfold graphAdd
  rw [if_pos h]

theorem setInsert_self {l : List Node} {x : Node} (h : x ∈ l) : setInsert l x = l := by
  unfold setInsert
  rw [if_pos h]

theorem PLe_refl (T : PState) : PLe T T :=
  ⟨fun _ h => h, fun _ h => h, fun _ h => h, fun _ h => h⟩

theorem PLe_trans {T1 T2 T3 : PState} (h1 : PLe T1 T2) (h2 : PLe T2 T3) : PLe T1 T3 :=
  ⟨h1.1.trans h2.1, h1.2.1.trans h2.2.1, h1.2.2.1.trans h2.2.2.1, h1.2.2.2.trans h2.2.2.2⟩

theorem sameCore_trans {T1 T2 T3 : PState} (h1 : sameCore T1 T2) (h2 : sameCore T2 T3) :
    sameCore T1 T3 :=
  ⟨h1.1.trans h2.1, h1.2.1.trans h2.2.1, h1.2.2.1.trans h2.2.2.1, h1.2.2.2.trans h2.2.2.2⟩

theorem copyStep_tt (T : PState) (u : Stmt) :
    (copyStep T u).translationtable_set = T.translationtable_set := by
  unfold copyStep
  dsimp only
  split <;> split <;> rfl

theorem copyStep_db (T : PState) (u : Stmt) :
    (copyStep T u).database_set = T.database_set := by
  unfold copyStep
  dsimp only
  split <;> split <;> rfl

theorem copyStep_grows (T : PState) (u : Stmt) : PLe T (copyStep T u) := by
  unfold copyStep
  dsimp only
  have h1 : PLe T (if u.s ∈ T.translationtable_set ∨ u.s ∈ T.database_set then T
      else { T with final_mapping := graphAdd T.final_mapping u }) := by
    split
    · exact PLe_refl T
    · exact ⟨subset_graphAdd T.final_mapping u, fun _ h => h, fun _ h => h, fun _ h => h⟩
  split
  · exact PLe_trans h1 ⟨fun _ h => h, subset_setInsert _ u.s, fun _ h => h, fun _ h => h⟩
  · exact h1

theorem mem_copyStep {T : PState} {u v : Stmt}
    (h : v ∈ (copyStep T u).final_mapping) : v ∈ T.final_mapping ∨ v = u := by
  unfold copyStep at h
  dsimp only at h
  split at h <;> split at h <;>
    first
      | exact Or.inl h
      | exact mem_graphAdd.mp h

theorem retrieve_grows (w : World) (fp : Str) (r : Node) (T : PState) :
    PLe T (retrieve_references w fp r T) := by
  obtain ⟨e1, e2, e3, hsub, _, _⟩ := retrieve_shape w fp r T
  exact ⟨hsub, by rw [e1]; exact fun _ h => h, by rw [e2]; exact fun _ h => h,
    by rw [e3]; exact fun _ h => h⟩

theorem cmStep_grows (w : World) (fp : Str) (T : PState) (r : Node) :
    PLe T (classmapStep w fp T r) := by
  unfold classmapStep
  split
  · exact PLe_refl T
  · refine PLe_trans ?_ (retrieve_grows w fp r _)
    exact ⟨fun _ h => h, subset_setInsert _ r, fun _ h => h, fun _ h => h⟩

theorem ttStep_grows (w : World) (fp : Str) (T : PState) (r : Node) :
    PLe T (ttableStep w fp T r) := by
  unfold ttableStep
  split
  · exact PLe_refl T
  · refine PLe_trans ?_ (retrieve_grows w fp r _)
    exact ⟨fun _ h => h, fun _ h => h, subset_setInsert _ r, fun _ h => h⟩

theorem dbStep_grows (w : World) (fp : Str) (T : PState) (r : Node) :
    PLe T (dbaseStep w fp T r) := by
  unfold dbaseStep
  split
  · exact PLe_refl T
  · refine PLe_trans ?_ (retrieve_grows w fp r _)
    exact ⟨fun _ h => h, fun _ h => h, fun _ h => h, subset_setInsert _ r⟩

theorem foldl_grows {α : Type} (step : PState → α → PState)
    (h : ∀ T x, PLe T (step T x)) (l : List α) (T : PState) : PLe T (l.foldl step T) :=
  foldl_pres (fun b => PLe T b) step (fun b x hb => PLe_trans hb (h b x)) l T (PLe_refl T)

theorem cmStep_tt (w : World) (fp : Str) (T : PState) (r : Node) :
    (classmapStep w fp T r).translationtable_set = T.translationtable_set := by
  unfold classmapStep
  split
  · rfl
  · exact (retrieve_shape w fp r _).2.1

theorem cmStep_db (w : World) (fp : Str) (T : PState) (r : Node) :
    (classmapStep w fp T r).database_set = T.database_set := by
  unfold classmapStep
  split
  · rfl
  · exact (retrieve_shape w fp r _).2.2.1

theorem ttStep_cm (w : World) (fp : Str) (T : PState) (r : Node) :
    (ttableStep w fp T r).classmap_set = T.classmap_set := by
  unfold ttableStep
  split
  · rfl
  · exact (retrieve_shape w fp r _).1

theorem ttStep_db (w : World) (fp : Str) (T : PState) (r : Node) :
    (ttableStep w fp T r).database_set = T.database_set := by
  unfold ttableStep
  split
  · rfl
  · exact (retrieve_shape w fp r _).2.2.1

theorem dbStep_cm (w : World) (fp : Str) (T : PState) (r : Node) :
    (dbaseStep w fp T r).classmap_set = T.classmap_set := by
  unfold dbaseStep
  split
  · rfl
  · exact (retrieve_shape w fp r _).1

theorem dbStep_tt (w : World) (fp : Str) (T : PState) (r : Node) :
    (dbaseStep w fp T r).translationtable_set = T.translationtable_set := by
  unfold dbaseStep
  split
  · rfl
  · exact (retrieve_shape w fp r _).2.1

theorem copyStep_mapping (T : PState) (u : Stmt) :
    (copyStep T u).final_mapping =
      if u.s ∈ T.translationtable_set ∨ u.s ∈ T.database_set then T.final_mapping
      else graphAdd T.final_mapping u := by
  unfold copyStep
  dsimp only
  split <;> split <;> rfl

theorem copyStep_cm (T : PState) (u : Stmt) :
    (copyStep T u).classmap_set =
      if u.o = d2rqClassMap then setInsert T.classmap_set u.s else T.classmap_set := by
  unfold copyStep
  dsimp only
  split <;> split <;> rfl

theorem mem_copyPhase :
    ∀ (l : List Stmt) (T : PState) (v : Stmt),
      v ∈ (l.foldl copyStep T).final_mapping → v ∈ T.final_mapping ∨ v ∈ l := by
  intro l
  induction l with
  | nil => intro T v h; exact Or.inl h
  | cons u l ih =>
    intro T v h
    rw [List.foldl_cons] at h
    rcases ih (copyStep T u) v h with h2 | h2
    · rcases mem_copyStep h2 with h3 | h3
      · exact Or.inl h3
      · right; rw [h3]; exact List.mem_cons_self u l
    · exact Or.inr (List.mem_cons_of_mem u h2)

theorem copyPhase_covers :
    ∀ (l : List Stmt) (T : PState), ∀ t ∈ l,
      t ∈ (l.foldl copyStep T).final_mapping ∨
        t.s ∈ T.translationtable_set ∨ t.s ∈ T.database_set := by
  intro l
  induction l with
  | nil => intro T t ht; simp at ht
  | cons u l ih =>
    intro T t ht
    rw [List.foldl_cons]
    rcases List.mem_cons.mp ht with rfl | htl
    · by_cases hg2 : t.s ∈ T.translationtable_set ∨ t.s ∈ T.database_set
      · exact Or.inr hg2
      · left
        have hmem : t ∈ (copyStep T t).final_mapping := by
          rw [copyStep_mapping, if_neg hg2]
          exact mem_graphAdd.mpr (Or.inr rfl)
        exact (foldl_grows copyStep copyStep_grows l (copyStep T t)).1 hmem
    · rcases ih (copyStep T u) t htl with h | h
      · exact Or.inl h
      · right
        rw [copyStep_tt, copyStep_db] at h
        exact h

theorem copyPhase_classmaps :
    ∀ (l : List Stmt) (T : PState), ∀ t ∈ l,
      t.o = d2rqClassMap → t.s ∈ (l.foldl copyStep T).classmap_set := by
  intro l
  induction l with
  | nil => intro T t ht; simp at ht
  | cons u l ih =>
    intro T t ht ho
    rw [List.foldl_cons]
    rcases List.mem_cons.mp ht with rfl | htl
    · have hmem : t.s ∈ (copyStep T t).classmap_set := by
        rw [copyStep_cm, if_pos ho]
        exact mem_setInsert.mpr (Or.inr rfl)
      exact (foldl_grows copyStep copyStep_grows l (copyStep T t)).2.1 hmem
    · exact ih (copyStep T u) t htl ho

theorem cmFold_covers (w : World) (fp : Str) :
    ∀ (l : List Node) (T : PState), ∀ r ∈ l,
      r ∈ (l.foldl (classmapStep w fp) T).classmap_set := by
  intro l
  induction l with
  | nil => intro T r hr; simp at hr
  | cons r0 l ih =>
    intro T r hr
    rw [List.foldl_cons]
    rcases List.mem_cons.mp hr with rfl | hrl
    · have hmem : r ∈ (classmapStep w fp T r).classmap_set := by
        unfold classmapStep
        split
        case isTrue h => exact h
        case isFalse h =>
          rw [(retrieve_shape w fp r _).1]
          exact mem_setInsert.mpr (Or.inr rfl)
      exact (foldl_grows _ (cmStep_grows w fp) l _).2.1 hmem
    · exact ih (classmapStep w fp T r0) r hrl

theorem ttFold_covers (w : World) (fp : Str) :
    ∀ (l : List Node) (T : PState), ∀ r ∈ l,
      r ∈ (l.foldl (ttableStep w fp) T).translationtable_set := by
  intro l
  induction l with
  | nil => intro T r hr; simp at hr
  | cons r0 l ih =>
    intro T r hr
    rw [List.foldl_cons]
    rcases List.mem_cons.mp hr with rfl | hrl
    · have hmem : r ∈ (ttableStep w fp T r).translationtable_set := by
        unfold ttableStep
        split
        case isTrue h => exact h
        case isFalse h =>
          rw [(retrieve_shape w fp r _).2.1]
          exact mem_setInsert.mpr (Or.inr rfl)
      exact (foldl_grows _ (ttStep_grows w fp) l _).2.2.1 hmem
    · exact ih (ttableStep w fp T r0) r hrl

theorem dbFold_covers (w : World) (fp : Str) :
    ∀ (l : List Node) (T : PState), ∀ r ∈ l,
      r ∈ (l.foldl (dbaseStep w fp) T).database_set := by
  intro l
  induction l with
  | nil => intro T r hr; simp at hr
  | cons r0 l ih =>
    intro T r hr
    rw [List.foldl_cons]
    rcases List.mem_cons.mp hr with rfl | hrl
    · have hmem : r ∈ (dbaseStep w fp T r).database_set := by
        unfold dbaseStep
        split
        case isTrue h => exact h
        case isFalse h =>
          rw [(retrieve_shape w fp r _).2.2.1]
          exact mem_setInsert.mpr (Or.inr rfl)
      exact (foldl_grows _ (dbStep_grows w fp) l _).2.2.2 hmem
    · exact ih (dbaseStep w fp T r0) r hrl

theorem bnodeFree_retrieve (w : World) (fp : Str) (r : Node) (T : PState)
    (hw : bnodeFreeWorld w) (hm : bnodeFreeGraph T.final_mapping) :
    bnodeFreeGraph (retrieve_references w fp r T).final_mapping := by
  intro t ht
  rcases (retrieve_shape w fp r T).2.2.2.2.2 t ht with h | ⟨e, he, f, hf, hin⟩
  · exact hm t h
  · have hfg : bnodeFreeGraph f.graph := hw e he f hf
    rw [instantiate_id hfg] at hin
    exact hfg t hin

theorem bnodeFree_cmStep (w : World) (fp : Str) (T : PState) (r : Node)
    (hw : bnodeFreeWorld w) (hm : bnodeFreeGraph T.final_mapping) :
    bnodeFreeGraph (classmapStep w fp T r).final_mapping := by
  unfold classmapStep
  split
  · exact hm
  · exact bnodeFree_retrieve w fp r _ hw hm

theorem bnodeFree_ttStep (w : World) (fp : Str) (T : PState) (r : Node)
    (hw : bnodeFreeWorld w) (hm : bnodeFreeGraph T.final_mapping) :
    bnodeFreeGraph (ttableStep w fp T r).final_mapping := by
  unfold ttableStep
  split
  · exact hm
  · exact bnodeFree_retrieve w fp r _ hw hm

theorem bnodeFree_dbStep (w : World) (fp : Str) (T : PState) (r : Node)
    (hw : bnodeFreeWorld w) (hm : bnodeFreeGraph T.final_mapping) :
    bnodeFreeGraph (dbaseStep w fp T r).final_mapping := by
  unfold dbaseStep
  split
  · exact hm
  · exact bnodeFree_retrieve w fp r _ hw hm

theorem parse_facts (w : World) (d : Str) (fe : FileEnt) (S : PState)
    (hw : bnodeFreeWorld w) (hg : bnodeFreeGraph fe.graph)
    (hm : bnodeFreeGraph S.final_mapping) :
    PLe S (parse_file w d fe S) ∧
    bnodeFreeGraph (parse_file w d fe S).final_mapping ∧
    fileDone d fe (parse_file w d fe S) := by
  have hinst := instantiate_id hg S.counter
  cases hv : validate_file (expectedName d fe) fe.graph with
  | none =>
    have hv2 : validate_file (basename (d ++ slashC ++ fe.name))
        (instantiateBNodes S.counter fe.graph) = none := by
      rw [hinst]; exact hv
    rw [parse_file_none w d fe S hv2, cleanup_id hm]
    exact ⟨⟨fun _ h => h, fun _ h => h, fun _ h => h, fun _ h => h⟩, hm, Or.inl hv⟩
  | some g =>
    have hgg : g = fe.graph := validate_some hv
    subst hgg
    have hv2 : validate_file (basename (d ++ slashC ++ fe.name))
        (instantiateBNodes S.counter fe.graph) = some fe.graph := by
      rw [hinst]; exact hv
    rw [parse_file_some w d fe S fe.graph hv2]
    set fp := d ++ slashC ++ fe.name with hfp
    set S0 := { S with counter := S.counter + 1 } with hS0
    set T1 := fe.graph.foldl copyStep S0 with hT1
    set T2 := add_declared_namespaces fe.ns T1 with hT2
    set T3 := (objectsOf fe.graph d2rqRefersToClassMap).foldl (classmapStep w fp) T2 with hT3
    set T4 := (objectsOf fe.graph d2rqTranslateWith).foldl (ttableStep w fp) T3 with hT4
    set T5 := (objectsOf fe.graph d2rqDataStorage).foldl (dbaseStep w fp) T4 with hT5
    have hP01 : PLe S0 T1 := foldl_grows copyStep copyStep_grows fe.graph S0
    have hP12 : PLe T1 T2 := ⟨fun _ h => h, fun _ h => h, fun _ h => h, fun _ h => h⟩
    have hP23 : PLe T2 T3 := foldl_grows _ (cmStep_grows w fp) _ T2
    have hP34 : PLe T3 T4 := foldl_grows _ (ttStep_grows w fp) _ T3
    have hP45 : PLe T4 T5 := foldl_grows _ (dbStep_grows w fp) _ T4
    have hPS0 : PLe S S0 := ⟨fun _ h => h, fun _ h => h, fun _ h => h, fun _ h => h⟩
    have hP25 : PLe T2 T5 := PLe_trans hP23 (PLe_trans hP34 hP45)
    have hP15 : PLe T1 T5 := PLe_trans hP12 hP25
    have hP05 : PLe S0 T5 := PLe_trans hP01 hP15
    have hPS5 : PLe S T5 := PLe_trans hPS0 hP05
    have hbf1 : bnodeFreeGraph T1.final_mapping := by
      intro t ht
      rcases mem_copyPhase fe.graph S0 t ht with h | h
      · exact hm t h
      · exact hg t h
    have hbf2 : bnodeFreeGraph T2.final_mapping := hbf1
    have hbf3 : bnodeFreeGraph T3.final_mapping :=
      foldl_pres (fun T => bnodeFreeGraph T.final_mapping) (classmapStep w fp)
        (fun T r h => bnodeFree_cmStep w fp T r hw h) _ T2 hbf2
    have hbf4 : bnodeFreeGraph T4.final_mapping :=
      foldl_pres (fun T => bnodeFreeGraph T.final_mapping) (ttableStep w fp)
        (fun T r h => bnodeFree_ttStep w fp T r hw h) _ T3 hbf3
    have hbf5 : bnodeFreeGraph T5.final_mapping :=
      foldl_pres (fun T => bnodeFreeGraph T.final_mapping) (dbaseStep w fp)
        (fun T r h => bnodeFree_dbStep w fp T r hw h) _ T4 hbf4
    rw [cleanup_id hbf5]
    refine ⟨hPS5, hbf5, Or.inr ⟨?_, ?_, ?_, ?_, ?_⟩⟩
    · intro t ht
      rcases copyPhase_covers fe.graph S0 t ht with h | h | h
      · exact Or.inl (hP15.1 h)
      · exact Or.inr (Or.inl (hP05.2.2.1 h))
      · exact Or.inr (Or.inr (hP05.2.2.2 h))
    · intro t ht ho
      exact hP15.2.1 (copyPhase_classmaps fe.graph S0 t ht ho)
    · intro r hr
      exact (PLe_trans hP34 hP45).2.1 (cmFold_covers w fp _ T2 r hr)
    · intro r hr
      exact hP45.2.2.1 (ttFold_covers w fp _ T3 r hr)
    · intro r hr
      exact dbFold_covers w fp _ T4 r hr

theorem copyStep_fix {T : PState} {t : Stmt}
    (h1 : t ∈ T.final_mapping ∨ t.s ∈ T.translationtable_set ∨ t.s ∈ T.database_set)
    (h2 : t.o = d2rqClassMap → t.s ∈ T.classmap_set) : copyStep T t = T := by
  unfold copyStep
  dsimp only
  have hS1 : (if t.s ∈ T.translationtable_set ∨ t.s ∈ T.database_set then T
      else { T with final_mapping := graphAdd T.final_mapping t }) = T := by
    split
    · rfl
    case isFalse hgd =>
      have hmem : t ∈ T.final_mapping := by
        rcases h1 with h | h | h
        · exact h
        · exact absurd (Or.inl h) hgd
        · exact absurd (Or.inr h) hgd
      rw [graphAdd_self hmem]
  rw [hS1]
  split
  case isTrue ho => rw [setInsert_self (h2 ho)]
  case isFalse => rfl

theorem sameCore_PLe {T T2 : PState} (h : sameCore T T2) : PLe T T2 := by
  refine ⟨?_, ?_, ?_, ?_⟩
  · rw [h.1]; exact fun _ x => x
  · rw [h.2.1]; exact fun _ x => x
  · rw [h.2.2.1]; exact fun _ x => x
  · rw [h.2.2.2]; exact fun _ x => x

theorem fileDone_mono {d : Str} {fe : FileEnt} {T T2 : PState}
    (hle : PLe T T2) (h : fileDone d fe T) : fileDone d fe T2 := by
  rcases h with h | ⟨h1, h2, h3, h4, h5⟩
  · exact Or.inl h
  · refine Or.inr ⟨?_, ?_, ?_, ?_, ?_⟩
    · intro t ht
      rcases h1 t ht with h | h | h
      · exact Or.inl (hle.1 h)
      · exact Or.inr (Or.inl (hle.2.2.1 h))
      · exact Or.inr (Or.inr (hle.2.2.2 h))
    · exact fun t ht ho => hle.2.1 (h2 t ht ho)
    · exact fun r hr => hle.2.1 (h3 r hr)
    · exact fun r hr => hle.2.2.1 (h4 r hr)
    · exact fun r hr => hle.2.2.2 (h5 r hr)

theorem parse_noop (w : World) (d : Str) (fe : FileEnt) (S : PState)
    (hg : bnodeFreeGraph fe.graph) (hm : bnodeFreeGraph S.final_mapping)
    (hdone : fileDone d fe S) : sameCore S (parse_file w d fe S) := by
  have hinst := instantiate_id hg S.counter
  cases hv : validate_file (expectedName d fe) fe.graph with
  | none =>
    have hv2 : validate_file (basename (d ++ slashC ++ fe.name))
        (instantiateBNodes S.counter fe.graph) = none := by
      rw [hinst]; exact hv
    rw [parse_file_none w d fe S hv2, cleanup_id hm]
    exact ⟨rfl, rfl, rfl, rfl⟩
  | some g =>
    have hgg : g = fe.graph := validate_some hv
    subst hgg
    rcases hdone with hnone | ⟨hc1, hc2, hc3, hc4, hc5⟩
    · rw [hnone] at hv
      exact Option.noConfusion hv
    · have hv2 : validate_file (basename (d ++ slashC ++ fe.name))
          (instantiateBNodes S.counter fe.graph) = some fe.graph := by
        rw [hinst]; exact hv
      rw [parse_file_some w d fe S fe.graph hv2]
      set fp := d ++ slashC ++ fe.name with hfp
      set S0 := { S with counter := S.counter + 1 } with hS0
      have hfix1 : fe.graph.foldl copyStep S0 = S0 := by
        apply foldl_fix
        intro t ht
        exact copyStep_fix (hc1 t ht) (fun ho => hc2 t ht ho)
      rw [hfix1]
      set T2 := add_declared_namespaces fe.ns S0 with hT2
      have hfix3 : (objectsOf fe.graph d2rqRefersToClassMap).foldl
          (classmapStep w fp) T2 = T2 := by
        apply foldl_fix
        intro r hr
        unfold classmapStep
        rw [if_pos (show r ∈ T2.classmap_set from hc3 r hr)]
      rw [hfix3]
      have hfix4 : (objectsOf fe.graph d2rqTranslateWith).foldl
          (ttableStep w fp) T2 = T2 := by
        apply foldl_fix
        intro r hr
        unfold ttableStep
        rw [if_pos (show r ∈ T2.translationtable_set from hc4 r hr)]
      rw [hfix4]
      have hfix5 : (objectsOf fe.graph d2rqDataStorage).foldl
          (dbaseStep w fp) T2 = T2 := by
        apply foldl_fix
        intro r hr
        unfold dbaseStep
        rw [if_pos (show r ∈ T2.database_set from hc5 r hr)]
      rw [hfix5]
      have hcl : clear_orphan_blank_nodes T2.final_mapping = T2.final_mapping :=
        cleanup_id hm
      rw [hcl]
      exact ⟨rfl, rfl, rfl, rfl⟩

theorem mergeFiles_cons (w : World) (p : Str × FileEnt) (fl : List (Str × FileEnt))
    (S : PState) :
    mergeFiles w (p :: fl) S = mergeFiles w fl (parse_file w p.1 p.2 S) := by
  unfold mergeFiles
  rw [List.foldl_cons]

theorem merge_pass1 (w : World) (hw : bnodeFreeWorld w) :
    ∀ (fl : List (Str × FileEnt)) (S : PState),
      (∀ p ∈ fl, bnodeFreeGraph p.2.graph) → bnodeFreeGraph S.final_mapping →
      PLe S (mergeFiles w fl S) ∧
      bnodeFreeGraph (mergeFiles w fl S).final_mapping ∧
      ∀ p ∈ fl, fileDone p.1 p.2 (mergeFiles w fl S) := by
  intro fl
  induction fl with
  | nil =>
    intro S _ hm
    exact ⟨PLe_refl S, hm, by intro p hp; simp at hp⟩
  | cons p fl ih =>
    intro S hfl hm
    have hpg : bnodeFreeGraph p.2.graph := hfl p (List.mem_cons_self p fl)
    obtain ⟨hle1, hbf1, hdone1⟩ := parse_facts w p.1 p.2 S hw hpg hm
    rw [mergeFiles_cons]
    obtain ⟨hle2, hbf2, hdone2⟩ := ih (parse_file w p.1 p.2 S)
      (fun q hq => hfl q (List.mem_cons_of_mem p hq)) hbf1
    refine ⟨PLe_trans hle1 hle2, hbf2, ?_⟩
    intro q hq
    rcases List.mem_cons.mp hq with rfl | hql
    · exact fileDone_mono hle2 hdone1
    · exact hdone2 q hql

theorem merge_pass2 (w : World) :
    ∀ (fl : List (Str × FileEnt)) (S : PState),
      (∀ p ∈ fl, bnodeFreeGraph p.2.graph) → bnodeFreeGraph S.final_mapping →
      (∀ p ∈ fl, fileDone p.1 p.2 S) →
      sameCore S (mergeFiles w fl S) := by
  intro fl
  induction fl with
  | nil => intro S _ _ _; exact ⟨rfl, rfl, rfl, rfl⟩
  | cons p fl ih =>
    intro S hfl hm hdone
    have hpg := hfl p (List.mem_cons_self p fl)
    have hn : sameCore S (parse_file w p.1 p.2 S) :=
      parse_noop w p.1 p.2 S hpg hm (hdone p (List.mem_cons_self p fl))
    rw [mergeFiles_cons]
    have hm2 : bnodeFreeGraph (parse_file w p.1 p.2 S).final_mapping := by
      rw [← hn.1]; exact hm
    have hdone2 : ∀ q ∈ fl, fileDone q.1 q.2 (parse_file w p.1 p.2 S) :=
      fun q hq => fileDone_mono (sameCore_PLe hn) (hdone q (List.mem_cons_of_mem p hq))
    exact sameCore_trans hn (ih (parse_file w p.1 p.2 S)
      (fun q hq => hfl q (List.mem_cons_of_mem p hq)) hm2 hdone2)

/-- C8 (counterexample): every load of a file creates fresh blank nodes, so
re-merging a file containing a blank node duplicates its blank-node structure:
after the second pass over the same one-file list, the final mapping contains a
second copy of the blank-node statement that the first pass's mapping lacks —
the two statement sets differ. -/
theorem c8_counterexample :
    bnodeTwice = mergeFiles [] [(dirD, fHasBnode)] bnodeOnce ∧
    Stmt.mk (.iri "http://x/Foo".data) nP (.bnode "1_b1".data) ∈ bnodeTwice.final_mapping ∧
    Stmt.mk (.iri "http://x/Foo".data) nP (.bnode "1_b1".data) ∉ bnodeOnce.final_mapping := by
  decide

/-- C8 (amended): for input files and sibling files that contain no blank
nodes, merging the same list of files a second time after a first complete pass
leaves the final mapping's statements exactly unchanged; with blank nodes
present, re-parsing relabels them freshly and the second pass duplicates
blank-node structure (see the counterexample). -/
theorem c8_idempotent (w : World) (fl : List (Str × FileEnt))
    (hw : bnodeFreeWorld w) (hfl : ∀ p ∈ fl, bnodeFreeGraph p.2.graph) :
    (mergeFiles w fl (mergeFiles w fl initS)).final_mapping =
      (mergeFiles w fl initS).final_mapping := by
  have hinit : bnodeFreeGraph initS.final_mapping := by
    intro t ht
    simp [initS] at ht
  obtain ⟨_, hbf, hdone⟩ := merge_pass1 w hw fl initS hfl hinit
  exact (merge_pass2 w fl (mergeFiles w fl initS) hfl hbf hdone).1.symm

/-- C8 (witness). -/
theorem c8_witness :
    (mergeFiles [] [(dirD, fDeclA)] (mergeFiles [] [(dirD, fDeclA)] initS)).final_mapping =
      (mergeFiles [] [(dirD, fDeclA)] initS).final_mapping :=
  c8_idempotent [] [(dirD, fDeclA)] (by decide) (by decide)

end Dimm
